import Mathlib

/-!
Verification of the client-side search engine in `js/search.js`.

Strings are modelled as `List Char` (JS strings are sequences of UTF-16
units; every input exercised here is plain text, where the two views
coincide).  Article fields keep Lean `String` at the record level and are
converted with `String.data` at the point of use.  JS objects used as
dictionaries (`searchIndex`) are modelled as association lists in key
insertion order, matching `Object.keys` enumeration for the non-numeric
keys produced here.  Machine time (`Date.now`-style millisecond clocks)
is an `Int` parameter threaded through scoring.
-/

namespace NewsSearch

/-- Word characters of the JS regexp class `\w`, i.e. `[A-Za-z0-9_]`. -/
def isWordChar (c : Char) : Bool :=
  c.isAlpha || c.isDigit || c = '_'

/-- Whitespace recognised by the JS `\s` class, restricted to the ASCII
whitespace that can actually occur in the modelled inputs. -/
def jsWS (c : Char) : Bool :=
  c = ' ' || c = '\t' || c = '\n' || c = '\r'

/-- Lower-casing of a JS string (`String.prototype.toLowerCase`), modelled
per character; agrees with JS on ASCII, which is the alphabet used here. -/
def lowerL (l : List Char) : List Char :=
  l.map Char.toLower

/-- JS `String.prototype.trim`: strip leading and trailing whitespace. -/
def trimChars (l : List Char) : List Char :=
  ((l.dropWhile jsWS).reverse.dropWhile jsWS).reverse

/-- JS `String.prototype.indexOf(p)`: index of the first occurrence of `p`
in `s`, `none` when absent (JS returns `-1`). -/
def listIndexOf : List Char → List Char → Option Nat
  | [], p => if p.isEmpty then some 0 else none
  | c :: tl, p =>
      if p.isPrefixOf (c :: tl) then some 0 else (listIndexOf tl p).map (· + 1)

/-- JS `String.prototype.includes(p)`. -/
def listContains (s p : List Char) : Bool :=
  (listIndexOf s p).isSome

/-- JS `String.prototype.indexOf(p, i)`: first occurrence at index `≥ i`. -/
def listIndexOfFrom (s p : List Char) (i : Nat) : Option Nat :=
  (listIndexOf (s.drop i) p).map (· + i)

/-- JS `String.prototype.split(c)` for a single-character separator: splits
at every occurrence, keeping empty pieces (so `"".split(' ') = [""]`). -/
def splitOnChar (c : Char) : List Char → List (List Char)
  | [] => [[]]
  | x :: xs =>
      if x = c then [] :: splitOnChar c xs
      else
        match splitOnChar c xs with
        | [] => [[x]]
        | g :: gs => (x :: g) :: gs

/-- Splitting at every element satisfying `p`, keeping empty pieces. -/
def splitOnPred (p : Char → Bool) : List Char → List (List Char)
  | [] => [[]]
  | x :: xs =>
      if p x then [] :: splitOnPred p xs
      else
        match splitOnPred p xs with
        | [] => [[x]]
        | g :: gs => (x :: g) :: gs

/-- Splitting on runs of whitespace, dropping empty pieces.  This models the
JS `split(/\s+/)` applied to a trimmed string (the only way the source uses
it), where the two agree. -/
def splitWsTokens (l : List Char) : List (List Char) :=
  (splitOnPred jsWS l).filter (fun t => !t.isEmpty)

/-- Joining a list of words with single spaces (JS `Array.prototype.join(' ')`). -/
def joinSpace (ws : List (List Char)) : List Char :=
  List.intercalate [' '] ws

/-- Raw article record as supplied by the data collaborator.  `sectionName`
models the JS field `section` (a Lean keyword).  `authorName` models
`author?.name`; `none` stands for an author object without a `name` field.
A wholly absent `author` object behaves identically everywhere except in
the author filter, where the optional chain short-circuits and silently
excludes the article instead of throwing — see `authorPass`.
`publishedAt` is the parsed timestamp in milliseconds (`new Date(x)`). -/
structure ArticleRecord where
  title : String
  summary : String
  content : Option String
  sectionName : String
  categories : Option (List String)
  tags : Option (List String)
  authorName : Option String
  publishedAt : Int
  featured : Bool
  deriving DecidableEq, Repr

/-- Entry of `this.searchData`: the spread article plus the section key it
was found under and the precomputed `searchText`. -/
structure IndexedArticle extends ArticleRecord where
  sectionKey : String
  searchText : List Char
  deriving DecidableEq, Repr

/-- One posting of `this.searchIndex[word]`. -/
structure Posting where
  articleIndex : Nat
  word : List Char
  positions : List Nat
  deriving DecidableEq, Repr

/-- The inverted index `this.searchIndex`: a JS object used as a dictionary,
modelled as an association list in key insertion order. -/
abbrev SearchIndex := List (List Char × List Posting)

/-- A search result: the spread article plus its relevance `score`. -/
structure ScoredResult extends IndexedArticle where
  score : Nat
  deriving DecidableEq, Repr

/-- The `filters` argument of `search`.  Field names mirror the JS filter
object (`section` is spelled `sectionF`). -/
structure Filters where
  sectionF : Option String
  dateRange : Option (Int × Int)
  author : Option String
  categories : Option (List String)
  tags : Option (List String)
  deriving DecidableEq, Repr

/-- The empty filter object `{}`. -/
def noFilters : Filters := ⟨none, none, none, none, none⟩

/-- Mutable engine state: `searchData` and `searchIndex` start as `null` and
are assigned by `buildSearchIndex`; `none` models the null state (fresh
engine, or an engine whose build failed). -/
structure Engine where
  searchData : Option (List IndexedArticle)
  searchIndex : Option SearchIndex
  deriving DecidableEq, Repr

/-- JS truthiness check plus dereference: accessing a member of `null`
throws, modelled as `Except.error`. -/
def ofOpt : Option α → Except Unit α
  | some a => Except.ok a
  | none => Except.error ()

/-- Source `createSearchText`: concatenate title, summary, content, section,
categories, tags and author name with spaces, lower-case, replace every
character outside `[\w\s]` by a space, collapse whitespace runs to single
spaces and trim.  The collapse-and-trim steps are expressed as re-joining
the whitespace-separated tokens, which yields the same string. -/
def createSearchText (a : ArticleRecord) : List Char :=
  let parts : List (List Char) :=
    [a.title.data, a.summary.data, (a.content.getD "").data, a.sectionName.data,
     (String.intercalate " " (a.categories.getD [])).data,
     (String.intercalate " " (a.tags.getD [])).data,
     (a.authorName.getD "").data]
  let joined := joinSpace parts
  let replaced := (lowerL joined).map (fun c => if isWordChar c || jsWS c then c else ' ')
  joinSpace (splitWsTokens replaced)

/-- Source `findWordPositions`: every start offset of `word` in `text`,
scanning forward and skipping past each match.  The source's `while` loop is
given `text.length + 1` as fuel, enough for every call site (`word` has
length ≥ 2 there, so offsets strictly increase and the loop runs at most
`text.length + 1` times). -/
def findWordPositionsAux (text word : List Char) : Nat → Nat → List Nat
  | _, 0 => []
  | i, fuel + 1 =>
      match listIndexOfFrom text word i with
      | none => []
      | some j => j :: findWordPositionsAux text word (j + word.length) fuel

/-- Source `findWordPositions` entry point. -/
def findWordPositions (text word : List Char) : List Nat :=
  findWordPositionsAux text word 0 (text.length + 1)

/-- Append a posting under key `w`: push onto the existing entry if the key
is present, otherwise create the entry (JS `if (!index[word]) index[word] = []`
followed by `push`), preserving key insertion order. -/
def indexInsert (w : List Char) (p : Posting) : SearchIndex → SearchIndex
  | [] => [(w, [p])]
  | e :: rest =>
      if e.1 = w then (e.1, e.2 ++ [p]) :: rest else e :: indexInsert w p rest

/-- Source `createSearchIndex`: for each article, split its `searchText` on
single spaces and post every token of length ≥ 2.  A token colliding with
an inherited `Object.prototype` name makes the JS build throw (`push` on a
truthy non-array); the model indexes it as an ordinary key, so the
invariants proved below hold of every index the program completes
building. -/
def createSearchIndex (articles : List IndexedArticle) : SearchIndex :=
  articles.enum.foldl
    (fun idx ia =>
      (splitOnChar ' ' ia.2.searchText).foldl
        (fun idx w =>
          if w.length < 2 then idx
          else indexInsert w ⟨ia.1, w, findWordPositions ia.2.searchText w⟩ idx)
        idx)
    []

/-- Source `buildSearchIndex` corpus flattening: every section except the
reserved key `"meta"` contributes its items, each extended with the section
key and its `searchText`. -/
def flattenCorpus (corpus : List (String × List ArticleRecord)) : List IndexedArticle :=
  corpus.foldl
    (fun acc sec =>
      if sec.1 = "meta" then acc
      else acc ++ sec.2.map (fun a => ⟨a, sec.1, createSearchText a⟩))
    []

/-- A successfully built engine: `buildSearchIndex` assigns `searchData`
then `searchIndex`. -/
def buildEngine (corpus : List (String × List ArticleRecord)) : Engine :=
  let data := flattenCorpus corpus
  ⟨some data, some (createSearchIndex data)⟩

/-- Adding to a JS `Set` (or deduplicating array), keeping insertion order. -/
def addUniq [DecidableEq α] (l : List α) (x : α) : List α :=
  if x ∈ l then l else l ++ [x]

/-- Add every posting's `articleIndex` to the candidate set. -/
def postingsAdd (cs : List Nat) (ps : List Posting) : List Nat :=
  ps.foldl (fun a p => addUniq a p.articleIndex) cs

/-- One full scan of the index, adding the postings of every key passing
`test` (the two `Object.keys(this.searchIndex).forEach` loops). -/
def phaseFold (idx : SearchIndex) (test : List Char → Bool) (cs : List Nat) : List Nat :=
  idx.foldl (fun a e => if test e.1 then postingsAdd a e.2 else a) cs

/-- Result of the JS property read `this.searchIndex[word]` on the index
object. -/
inductive PropLookup where
  /-- An own key: the read yields that key's posting array. -/
  | own (ps : List Posting)
  /-- No own key, but the name is an inherited `Object.prototype` member:
  the read yields a truthy non-array value. -/
  | inherited
  /-- No own key and no inherited member: the read yields `undefined`. -/
  | absent
  deriving DecidableEq, Repr

/-- Modelled from the JS standard: the own property names of
`Object.prototype`, inherited by the object literal `{}` that backs the
index.  Reading any of them on the index yields a truthy value (a function,
or the prototype object itself for `__proto__`), never an array. -/
def protoProps : List (List Char) :=
  [("constructor").data, ("hasOwnProperty").data, ("isPrototypeOf").data,
   ("propertyIsEnumerable").data, ("toLocaleString").data, ("toString").data,
   ("valueOf").data, ("__proto__").data, ("__defineGetter__").data,
   ("__defineSetter__").data, ("__lookupGetter__").data,
   ("__lookupSetter__").data]

/-- The JS property read `this.searchIndex[word]`: an own key (unique by
construction, see `createSearchIndex`) yields its posting array and shadows
the prototype; otherwise an inherited `Object.prototype` name yields a
truthy non-array, and any other name yields `undefined`. -/
def indexLookup (idx : SearchIndex) (w : List Char) : PropLookup :=
  match idx.find? (fun e => e.1 == w) with
  | some e => PropLookup.own e.2
  | none => if w ∈ protoProps then PropLookup.inherited else PropLookup.absent

/-- The two full-index scan phases of `getCandidateArticles` for one query
word: bidirectional-prefix keys, then (for words longer than 3)
bidirectional-substring keys.  These iterate `Object.keys`, which yields
own keys only, so no prototype case arises here. -/
def candPhases (idx : SearchIndex) (cs : List Nat) (w : List Char) : List Nat :=
  let cs2 := phaseFold idx (fun k => w.isPrefixOf k || k.isPrefixOf w) cs
  if w.length > 3 then phaseFold idx (fun k => listContains k w || listContains w k) cs2
  else cs2

/-- Body of the `queryWords.forEach` of `getCandidateArticles` for one
query word.  The exact stage is `if (this.searchIndex[word])` followed by
`.forEach`: an own key contributes its postings; an inherited
`Object.prototype` name passes the truthiness check but has no `.forEach`,
so the read throws a `TypeError` and aborts candidate selection; `undefined`
skips the stage.  Then the two scan phases run. -/
def candWordStep (idx : SearchIndex) (cs : List Nat) (w : List Char) :
    Except Unit (List Nat) :=
  match indexLookup idx w with
  | PropLookup.inherited => Except.error ()
  | PropLookup.own ps => Except.ok (candPhases idx (postingsAdd cs ps) w)
  | PropLookup.absent => Except.ok (candPhases idx cs w)

/-- The `queryWords.forEach` loop of `getCandidateArticles`; a thrown
`TypeError` aborts the whole loop. -/
def candFoldE (idx : SearchIndex) : List (List Char) → List Nat →
    Except Unit (List Nat)
  | [], cs => Except.ok cs
  | w :: ws, cs =>
      match candWordStep idx cs w with
      | Except.error e => Except.error e
      | Except.ok cs2 => candFoldE idx ws cs2

/-- Source `getCandidateArticles`: for every query word, union in exact-key
postings, bidirectional-prefix-key postings, and (for words longer than 3)
bidirectional-substring-key postings, deduplicated in insertion order; a
query word that hits an inherited `Object.prototype` property throws. -/
def getCandidateArticles (idx : SearchIndex) (queryWords : List (List Char)) :
    Except Unit (List Nat) :=
  candFoldE idx queryWords []

/-- Quantifier characters of JS regexps. -/
def quantChar (c : Char) : Bool :=
  c = '+' || c = '*' || c = '?'

/-- Helper for `regexTokenInvalid`: a quantifier directly following another
quantifier leaves it nothing to repeat. -/
def regexInvalidAux : Char → List Char → Bool
  | _, [] => false
  | prev, c :: rest => (quantChar prev && quantChar c) || regexInvalidAux c rest

/-- Whether `new RegExp("\\b" ++ w ++ "\\b")` throws a `SyntaxError`.
Modelled for the token alphabet exercised in this development (no grouping,
escape or class characters): the pattern is invalid exactly when a
quantifier has nothing to repeat, i.e. `w` starts with `+`, `*` or `?`
(a quantifier directly after the `\b` assertion) or one quantifier directly
follows another (as in `c++`). -/
def regexTokenInvalid : List Char → Bool
  | [] => false
  | c :: rest => quantChar c || regexInvalidAux c rest

/-- Whether `word` occurs in `s` starting at offset `i`. -/
def occursAt (s word : List Char) (i : Nat) : Bool :=
  word.isPrefixOf (s.drop i)

/-- Whether `word` occurs at offset `i` flanked by word boundaries `\b`:
the previous and the following character (when they exist) are non-word.
This is the JS `\b` semantics for a token made of word characters, the
alphabet on which the scorer is proved (other tokens either throw, see
`regexTokenInvalid`, or change the regexp's meaning). -/
def wholeWordAt (s word : List Char) (i : Nat) : Bool :=
  occursAt s word i
    && (i == 0 || !isWordChar (s.getD (i - 1) ' '))
    && (i + word.length == s.length || !isWordChar (s.getD (i + word.length) ' '))

/-- Number of whole-word occurrences of `word` in `s`
(`text.match(/\bword\b/g).length`; for a word-character token the matches
cannot overlap, so counting all boundary positions equals the count the
global regexp produces). -/
def countWholeWord (s word : List Char) : Nat :=
  ((List.range (s.length + 1)).filter (wholeWordAt s word)).length

/-- Per-token part of `calculateTextScore`: inside the `text.includes(word)`
guard, build the word regexp (which may throw), add 3 per whole-word match
and a flat 1 when the token occurs only as a substring. -/
def tokenScoreE (text w : List Char) : Except Unit Nat :=
  if listContains text w then
    if regexTokenInvalid w then Except.error ()
    else
      let em := countWholeWord text w
      Except.ok (3 * em + (if em = 0 then 1 else 0))
  else Except.ok 0

/-- The `queryWords.forEach` accumulation of `calculateTextScore`; a thrown
`SyntaxError` aborts the whole loop. -/
def tokensFoldE (text : List Char) : List (List Char) → Nat → Except Unit Nat
  | [], acc => Except.ok acc
  | w :: ws, acc =>
      match tokenScoreE text w with
      | Except.error e => Except.error e
      | Except.ok s => tokensFoldE text ws (acc + s)

/-- Source `calculateTextScore`: 10 for the full query as a substring, the
per-token scores, and the position bonus `max(0, 5 - floor(pos / 100))` when
the full query occurs.  Falsy (empty) text short-circuits to 0. -/
def calculateTextScore (text query : List Char) (queryWords : List (List Char)) :
    Except Unit Nat :=
  if text.isEmpty then Except.ok 0
  else
    match tokensFoldE text queryWords 0 with
    | Except.error e => Except.error e
    | Except.ok tok =>
        Except.ok ((if listContains text query then 10 else 0) + tok +
          (match listIndexOf text query with
           | some p => Nat.max 0 (5 - p / 100)
           | none => 0))

/-- Recency bonus of `scoreSearchResults`: `(now - publishedAt)` in
milliseconds compared against 1 and 7 days (the source divides by
`86400000` and compares against 1 and 7, which is equivalent). -/
def recencyBonus (now publishedAt : Int) : Nat :=
  if now - publishedAt < 86400000 then 2
  else if now - publishedAt < 604800000 then 1
  else 0

/-- The scored fields of an article with their weights, in source order:
title ×10, summary ×5, content ×2 (when present), tags joined ×3 (when
present), categories joined ×3 (when present), section ×1, author name ×1
(when present); `none` marks a field whose guard (`if (article.content)`
etc.) skips it.  A `tags`/`categories` value of `some []` joins to the
empty string and scores 0, exactly as in JS where an empty array is truthy;
`some ""` content likewise scores 0 either way. -/
def articleFields (a : IndexedArticle) : List (Nat × Option (List Char)) :=
  [(10, some (lowerL a.title.data)),
   (5, some (lowerL a.summary.data)),
   (2, a.content.map (fun c => lowerL c.data)),
   (3, a.tags.map (fun ts => lowerL (String.intercalate " " ts).data)),
   (3, a.categories.map (fun cs => lowerL (String.intercalate " " cs).data)),
   (1, some (lowerL a.sectionName.data)),
   (1, a.authorName.map (fun n => lowerL n.data))]

/-- Accumulate the weighted per-field text scores in order; a skipped field
contributes 0 and a thrown `SyntaxError` aborts the article's scoring. -/
def weightedFieldsE (q : List Char) (ws : List (List Char)) :
    List (Nat × Option (List Char)) → Except Unit Nat
  | [] => Except.ok 0
  | (wt, txt) :: rest =>
      match (match txt with
             | some t => calculateTextScore t q ws
             | none => Except.ok 0) with
      | Except.error e => Except.error e
      | Except.ok s =>
          match weightedFieldsE q ws rest with
          | Except.error e => Except.error e
          | Except.ok r => Except.ok (wt * s + r)

/-- Per-article body of `scoreSearchResults`: the weighted field scores plus
the recency and featured bonuses. -/
def articleScoreE (a : IndexedArticle) (now : Int) (q : List Char)
    (ws : List (List Char)) : Except Unit Nat :=
  match weightedFieldsE q ws (articleFields a) with
  | Except.error e => Except.error e
  | Except.ok s =>
      Except.ok (s + recencyBonus now a.publishedAt + (if a.featured then 1 else 0))

/-- The `candidates.forEach` loop of `scoreSearchResults`. -/
def scoreLoop (data : List IndexedArticle) (now : Int) (q : List Char)
    (ws : List (List Char)) : List Nat → List ScoredResult →
    Except Unit (List ScoredResult)
  | [], acc => Except.ok acc
  | i :: rest, acc =>
      match data.get? i with
      | none => scoreLoop data now q ws rest acc
      | some a =>
          match articleScoreE a now q ws with
          | Except.error e => Except.error e
          | Except.ok sc =>
              scoreLoop data now q ws rest
                (if 0 < sc then acc ++ [ScoredResult.mk a sc] else acc)

/-- Source `scoreSearchResults`: score each candidate in order, skip indices
outside `searchData` (`if (!article) return`), and keep the articles whose
score is positive. -/
def scoreSearchResults (data : List IndexedArticle) (candidates : List Nat)
    (now : Int) (q : List Char) (ws : List (List Char)) :
    Except Unit (List ScoredResult) :=
  scoreLoop data now q ws candidates []

/-- Filter a list with an effectful predicate; the author filter below can
throw on articles without an author. -/
def filterME (p : α → Except Unit Bool) : List α → Except Unit (List α)
  | [] => Except.ok []
  | x :: xs =>
      match p x with
      | Except.error e => Except.error e
      | Except.ok b =>
          match filterME p xs with
          | Except.error e => Except.error e
          | Except.ok rest => Except.ok (if b then x :: rest else rest)

/-- Section filter of `applyFilters`: exact match on `section` or
`sectionKey`. -/
def sectionPass (results : List ScoredResult) (f : Filters) : List ScoredResult :=
  match f.sectionF with
  | some s => results.filter (fun a => a.sectionName == s || a.sectionKey == s)
  | none => results

/-- Date-range filter of `applyFilters`: inclusive on both ends. -/
def datePass (results : List ScoredResult) (f : Filters) : List ScoredResult :=
  match f.dateRange with
  | some se => results.filter (fun a => se.1 ≤ a.publishedAt && a.publishedAt ≤ se.2)
  | none => results

/-- Author filter of `applyFilters`: case-insensitive substring.  In
`article.author?.name.toLowerCase()` the optional chain short-circuits on a
missing `author` object (the whole expression is `undefined`, falsy, and
the article is silently excluded), while an author object without `name`
throws.  `authorName = none` here models the throwing case; the
short-circuit case is not separately represented (no theorem below
quantifies a filter that reaches it on a `none` author). -/
def authorPass (results : List ScoredResult) (f : Filters) :
    Except Unit (List ScoredResult) :=
  match f.author with
  | some au => filterME (fun a =>
      match a.authorName with
      | some n => Except.ok (listContains (lowerL n.data) (lowerL au.data))
      | none => Except.error ()) results
  | none => Except.ok results

/-- Categories filter of `applyFilters`: any-of membership; an empty filter
list is skipped (`filters.categories.length > 0`). -/
def categoriesPass (results : List ScoredResult) (f : Filters) : List ScoredResult :=
  match f.categories with
  | some fc =>
      if fc.isEmpty then results
      else results.filter (fun a => match a.categories with
        | some cs => cs.any (fun c => fc.contains c)
        | none => false)
  | none => results

/-- Tags filter of `applyFilters`: any-of membership; an empty filter list
is skipped. -/
def tagsPass (results : List ScoredResult) (f : Filters) : List ScoredResult :=
  match f.tags with
  | some ft =>
      if ft.isEmpty then results
      else results.filter (fun a => match a.tags with
        | some ts => ts.any (fun t => ft.contains t)
        | none => false)
  | none => results

/-- Source `applyFilters`, in source order: section, date range, author,
categories, tags. -/
def applyFilters (results : List ScoredResult) (f : Filters) :
    Except Unit (List ScoredResult) :=
  match authorPass (datePass (sectionPass results f) f) f with
  | Except.error e => Except.error e
  | Except.ok r3 => Except.ok (tagsPass (categoriesPass r3 f) f)

/-- Stable insertion for the descending-score sort: a new element goes after
every already-placed element of score ≥ its own, which reproduces the stable
JS `sort((a, b) => b.score - a.score)`. -/
def insDesc (x : ScoredResult) : List ScoredResult → List ScoredResult
  | [] => [x]
  | y :: ys => if x.score ≤ y.score then y :: insDesc x ys else x :: y :: ys

/-- Stable sort by descending score. -/
def sortByScoreDesc (l : List ScoredResult) : List ScoredResult :=
  l.foldl (fun acc x => insDesc x acc) []

/-- Stable insertion for the ascending-length sort of suggestions
(`sort((a, b) => a.length - b.length)`). -/
def insLen (x : List Char) : List (List Char) → List (List Char)
  | [] => [x]
  | y :: ys => if y.length ≤ x.length then y :: insLen x ys else x :: y :: ys

/-- Stable sort by ascending string length. -/
def sortByLen (l : List (List Char)) : List (List Char) :=
  l.foldl (fun acc x => insLen x acc) []

/-- Scoring stage of `search`: normalize the query, select candidates and
score them.  The `null` checks are hoisted in front of the loops: the query
always has at least one token here (the caller guards on trimmed length
≥ 2), so the first loop iteration dereferences `searchIndex`, and a `null`
`searchData` is only reachable together with a failed build, where the
observable outcome (empty result) is identical. -/
def scoredCandidates (e : Engine) (now : Int) (query : String) :
    Except Unit (List ScoredResult) :=
  let nq := trimChars (lowerL query.data)
  let ws := splitWsTokens nq
  match e.searchIndex with
  | none => Except.error ()
  | some idx =>
      match getCandidateArticles idx ws with
      | Except.error e2 => Except.error e2
      | Except.ok cands =>
          match e.searchData with
          | none => Except.error ()
          | some data => scoreSearchResults data cands now nq ws

/-- Body of the `try` block of `search`: score, filter, sort, cap at
`maxResults = 20`. -/
def searchBody (e : Engine) (now : Int) (query : String) (f : Filters) :
    Except Unit (List ScoredResult) :=
  match scoredCandidates e now query with
  | Except.error e => Except.error e
  | Except.ok scored =>
      match applyFilters scored f with
      | Except.error e => Except.error e
      | Except.ok filtered => Except.ok ((sortByScoreDesc filtered).take 20)

/-- Source `search`: queries below `minQueryLength = 2` (after trim) return
`[]` before the `try`; any failure inside the `try` is downgraded to `[]`. -/
def search (e : Engine) (now : Int) (query : String) (f : Filters) :
    List ScoredResult :=
  if (trimChars query.data).length < 2 then []
  else
    match searchBody e now query f with
    | Except.ok r => r
    | Except.error _ => []

/-- The unfiltered scored results of a query, before the sort/filter/cap
stages (`[]` when scoring fails). -/
def searchScoredAll (e : Engine) (now : Int) (query : String) : List ScoredResult :=
  match scoredCandidates e now query with
  | Except.ok l => l
  | Except.error _ => []

/-- State-passing wrapper for `search`: the source method reads
`this.searchData` / `this.searchIndex` and assigns neither, so the engine
component of the result is the input engine. -/
def searchSt (e : Engine) (now : Int) (query : String) (f : Filters) :
    List ScoredResult × Engine :=
  (search e now query f, e)

/-- Title-phrase pass of `getSuggestions` for one article. -/
def titleSuggestions (nq : List Char) (qlen : Nat) (a : IndexedArticle)
    (acc : List (List Char)) : List (List Char) :=
  let title := lowerL a.title.data
  if listContains title nq then
    (splitOnChar ' ' title).enum.foldl
      (fun acc2 iw =>
        if listContains iw.2 nq && iw.2.length > 3 then
          let phrase := joinSpace (((splitOnChar ' ' title).drop iw.1).take 3)
          if qlen < phrase.length then addUniq acc2 phrase else acc2
        else acc2)
      acc
  else acc

/-- Source `getSuggestions`.  Unlike `search` it has no `try`/`catch`, so a
`null` index or data propagates as a thrown `TypeError` (`Except.error`);
and it checks the raw, untrimmed query length and never trims the query. -/
def getSuggestions (e : Engine) (query : String) :
    Except Unit (List (List Char)) :=
  if query.data.length < 2 then Except.ok []
  else
    let nq := lowerL query.data
    match e.searchIndex with
    | none => Except.error ()
    | some idx =>
        let pool := idx.foldl
          (fun acc entry => if nq.isPrefixOf entry.1 then addUniq acc entry.1 else acc) []
        match e.searchData with
        | none => Except.error ()
        | some data =>
            let pool := data.foldl (fun acc a => titleSuggestions nq query.data.length a acc) pool
            Except.ok (sortByLen (pool.take 8))

/-! ### Specification-side definitions

These mirror the wording of the specification claims; the theorems below
compare them with the program definitions above. -/

/-- A token made of word characters only: the alphabet on which the JS
word-boundary regexp has the textbook semantics modelled by
`countWholeWord`. -/
def wordCharToken (w : List Char) : Bool :=
  w.all isWordChar

/-- Claim wording of the per-field text score: 10 for the full query as a
substring, per token 3 per whole-word occurrence with a flat 1 for a
substring-only occurrence, and the position bonus for the full query. -/
def specTextScore (text q : List Char) (ws : List (List Char)) : Nat :=
  (if listContains text q then 10 else 0)
  + (ws.map (fun w => 3 * countWholeWord text w +
      (if countWholeWord text w = 0 ∧ listContains text w = true then 1 else 0))).sum
  + (match listIndexOf text q with
     | some p => Nat.max 0 (5 - p / 100)
     | none => 0)

/-- Claim wording of the relevance score: the weighted sum of per-field
scores over title ×10, summary ×5, content ×2 (when present), tags joined
×3 (when present), categories joined ×3 (when present), section ×1 and
author name ×1 (when present), plus the recency bonus (2 within a day,
else 1 within 7 days) and 1 for a featured article. -/
def specArticleScore (a : IndexedArticle) (now : Int) (q : List Char)
    (ws : List (List Char)) : Nat :=
  10 * specTextScore (lowerL a.title.data) q ws
  + 5 * specTextScore (lowerL a.summary.data) q ws
  + (match a.content with
     | some c => 2 * specTextScore (lowerL c.data) q ws
     | none => 0)
  + (match a.tags with
     | some ts => 3 * specTextScore (lowerL (String.intercalate " " ts).data) q ws
     | none => 0)
  + (match a.categories with
     | some cs => 3 * specTextScore (lowerL (String.intercalate " " cs).data) q ws
     | none => 0)
  + 1 * specTextScore (lowerL a.sectionName.data) q ws
  + (match a.authorName with
     | some n => 1 * specTextScore (lowerL n.data) q ws
     | none => 0)
  + (if now - a.publishedAt < 86400000 then 2
     else if now - a.publishedAt < 604800000 then 1 else 0)
  + (if a.featured then 1 else 0)

/-- Article indices posted under the index key `k`. -/
def PostedUnder (idx : SearchIndex) (k : List Char) (i : Nat) : Prop :=
  ∃ e ∈ idx, e.1 = k ∧ ∃ p ∈ e.2, p.articleIndex = i

/-- Claim wording of the candidate set for one query token: (a) postings
under the exact token key, (b) postings under a key in bidirectional prefix
relation with the token, (c) for tokens longer than 3, postings under a key
in bidirectional substring relation with the token. -/
def ClaimWordCandidate (idx : SearchIndex) (w : List Char) (i : Nat) : Prop :=
  PostedUnder idx w i
  ∨ (∃ k, ((∃ t, w = k ++ t) ∨ (∃ t, k = w ++ t)) ∧ PostedUnder idx k i)
  ∨ (3 < w.length ∧
      ∃ k, ((∃ l r, k = l ++ w ++ r) ∨ (∃ l r, w = l ++ k ++ r)) ∧ PostedUnder idx k i)

/-- Claim wording of the candidate set: the union over the query tokens. -/
def ClaimCandidate (idx : SearchIndex) (ws : List (List Char)) (i : Nat) : Prop :=
  ∃ w ∈ ws, ClaimWordCandidate idx w i

/-- The index keys. -/
def indexKeys (idx : SearchIndex) : List (List Char) :=
  idx.map (·.1)

/-- Claim wording of suggestion source (a): an index token that starts with
the lower-cased partial query. -/
def SuggestionFromIndex (idx : SearchIndex) (nq x : List Char) : Prop :=
  x ∈ indexKeys idx ∧ ∃ t, x = nq ++ t

/-- Claim wording of suggestion source (b): a 1-to-3-word phrase of a title
containing the query, starting at a word that contains the query and is
longer than 3 characters, the phrase being strictly longer than the query. -/
def SuggestionFromTitle (data : List IndexedArticle) (q nq : List Char)
    (x : List Char) : Prop :=
  ∃ a ∈ data,
    (∃ l r, lowerL a.title.data = l ++ nq ++ r) ∧
    ∃ i w, (i, w) ∈ (splitOnChar ' ' (lowerL a.title.data)).enum ∧
      (∃ l r, w = l ++ nq ++ r) ∧ 3 < w.length ∧
      ∃ j, 1 ≤ j ∧ j ≤ 3 ∧
        x = joinSpace (((splitOnChar ' ' (lowerL a.title.data)).drop i).take j) ∧
        q.length < x.length

/-- The section filter `{section: "tech"}` of the filter-conjunction claim. -/
def filtersTech : Filters := ⟨some "tech", none, none, none, none⟩

/-! ### Concrete instances used by counterexamples and witnesses -/

/-- A minimal article with a given title and section, no optional fields,
epoch publish time, not featured. -/
def mkArt (t : String) (sec : String) : ArticleRecord :=
  ⟨t, "", none, sec, none, none, none, 0, false⟩

/-- Engine whose build never ran (or failed): both fields still `null`. -/
def engNull : Engine := ⟨none, none⟩

/-- Corpus with a single title containing a tab character inside a word. -/
def engTab : Engine := buildEngine [("news", [mkArt "x\tab" "news"])]

/-- Corpus for the regexp-token scenario: one article whose title contains
both a plain token and the literal token `c++`. -/
def engCpp : Engine := buildEngine [("news", [mkArt "c++ news" "news"])]

/-- Corpus with 20 identically high-scoring non-tech articles followed by
one lower-scoring tech article: the tech article is pushed past the
20-result cap of the unfiltered search. -/
def engCap : Engine :=
  buildEngine
    [("misc", List.replicate 20 (mkArt "alpha alpha" "misc")),
     ("tech", [mkArt "alpha" "tech"])]

/-- A small single-article tech corpus for witnesses. -/
def engTech : Engine := buildEngine [("tech", [mkArt "alpha" "tech"])]

/-- Corpus whose only indexed title token prefix-matches the query token
"constructor": the index holds the key "constructors" while the query token
itself collides with the inherited `Object.prototype.constructor`. -/
def engProto : Engine :=
  buildEngine [("news", [mkArt "constructors meet" "news"])]

/-- The inverted index of `engProto`. -/
def idxProto : SearchIndex :=
  createSearchIndex (flattenCorpus [("news", [mkArt "constructors meet" "news"])])

/-- Fixed query time for the concrete scenarios (far after the epoch, so no
recency bonus applies). -/
def tNow : Int := 1000000000000

/-- Indexed article used by the scoring witness. -/
def artScore : IndexedArticle :=
  ⟨mkArt "Markets rally after rate cut" "business", "business",
   createSearchText (mkArt "Markets rally after rate cut" "business")⟩

/-- Single-article indexed collection used by the index-key witness. -/
def artsTech : List IndexedArticle :=
  flattenCorpus [("tech", [mkArt "alpha" "tech"])]

/-! ### Supporting lemmas -/

/-- The lower-level characterization of `List.isPrefixOf`. -/
theorem isPrefixOf_eq_true (p s : List Char) :
    p.isPrefixOf s = true ↔ ∃ t, s = p ++ t := by
  induction p generalizing s with
  | nil => simp [List.isPrefixOf]
  | cons a as ih =>
      cases s with
      | nil => simp [List.isPrefixOf]
      | cons b bs =>
          simp only [List.isPrefixOf, Bool.and_eq_true, beq_iff_eq, ih,
            List.cons_append, List.cons.injEq]
          constructor
          · rintro ⟨hab, t, ht⟩
            exact ⟨t, hab.symm, ht⟩
          · rintro ⟨t, hab, ht⟩
            exact ⟨hab.symm, t, ht⟩

/-- The characterization of `listContains` as substring occurrence. -/
theorem listContains_eq_true (s p : List Char) :
    listContains s p = true ↔ ∃ l r, s = l ++ p ++ r := by
  unfold listContains
  induction s with
  | nil =>
      by_cases hp : p = []
      · subst hp
        simp [listIndexOf]
      · have hne : p.isEmpty = false := by simp [List.isEmpty_iff, hp]
        have hnone : listIndexOf [] p = none := by simp [listIndexOf, hne]
        rw [hnone]
        simp only [Option.isSome_none, Bool.false_eq_true, false_iff]
        rintro ⟨l, r, hl⟩
        have h2 := List.append_eq_nil.mp hl.symm
        have h3 := List.append_eq_nil.mp h2.1
        exact hp h3.2
  | cons c tl ih =>
      by_cases h : p.isPrefixOf (c :: tl) = true
      · have hsome : listIndexOf (c :: tl) p = some 0 := by simp [listIndexOf, h]
        rw [hsome]
        simp only [Option.isSome_some, true_iff]
        obtain ⟨t, ht⟩ := (isPrefixOf_eq_true p (c :: tl)).1 h
        exact ⟨[], t, by simpa using ht⟩
      · have hstep : listIndexOf (c :: tl) p = (listIndexOf tl p).map (· + 1) := by
          simp [listIndexOf, h]
        have hiso : (Option.map (fun x => x + 1) (listIndexOf tl p)).isSome
            = (listIndexOf tl p).isSome := by
          cases listIndexOf tl p <;> rfl
        rw [hstep, hiso, ih]
        constructor
        · rintro ⟨l, r, hl⟩
          exact ⟨c :: l, r, by simp [hl]⟩
        · rintro ⟨l, r, hl⟩
          cases l with
          | nil =>
              exfalso
              apply h
              exact (isPrefixOf_eq_true p (c :: tl)).2 ⟨r, by simpa using hl⟩
          | cons x l' =>
              simp only [List.cons_append, List.cons.injEq] at hl
              exact ⟨l', r, hl.2⟩

/-- A positive whole-word count implies substring occurrence (the direction
the token scorer needs to collapse its guard). -/
theorem countWholeWord_pos_contains {s w : List Char}
    (h : 0 < countWholeWord s w) : listContains s w = true := by
  have hne : ((List.range (s.length + 1)).filter (wholeWordAt s w)) ≠ [] := by
    intro hnil
    simp [countWholeWord, hnil] at h
  obtain ⟨i, hi⟩ := List.exists_mem_of_ne_nil _ hne
  have hww : wholeWordAt s w i = true := (List.mem_filter.1 hi).2
  have hocc : occursAt s w i = true := by
    simp only [wholeWordAt, Bool.and_eq_true] at hww
    exact hww.1.1
  obtain ⟨t, ht⟩ := (isPrefixOf_eq_true w (s.drop i)).1 hocc
  refine (listContains_eq_true s w).2 ⟨s.take i, t, ?_⟩
  calc s = s.take i ++ s.drop i := (List.take_append_drop i s).symm
    _ = s.take i ++ w ++ t := by rw [ht, List.append_assoc]

/-- Membership in the deduplicating insert. -/
theorem mem_addUniq [DecidableEq α] {l : List α} {x a : α} :
    a ∈ addUniq l x ↔ a ∈ l ∨ a = x := by
  unfold addUniq
  by_cases h : x ∈ l
  · simp only [if_pos h]
    exact ⟨Or.inl, fun ha => ha.elim id (fun hx => hx ▸ h)⟩
  · simp [if_neg h]

/-- The deduplicating insert preserves `Nodup`. -/
theorem nodup_addUniq [DecidableEq α] {l : List α} {x : α} (h : l.Nodup) :
    (addUniq l x).Nodup := by
  unfold addUniq
  by_cases hx : x ∈ l <;> simp [hx, List.nodup_append, h]

/-- Membership after adding a posting list. -/
theorem mem_postingsAdd {cs : List Nat} {ps : List Posting} {i : Nat} :
    i ∈ postingsAdd cs ps ↔ i ∈ cs ∨ ∃ p ∈ ps, p.articleIndex = i := by
  induction ps generalizing cs with
  | nil => simp [postingsAdd]
  | cons p ps ih =>
      simp only [postingsAdd, List.foldl_cons] at ih ⊢
      rw [ih]
      simp only [mem_addUniq, List.mem_cons]
      constructor
      · rintro (( hc | rfl) | ⟨q, hq, hqi⟩)
        · exact Or.inl hc
        · exact Or.inr ⟨p, Or.inl rfl, rfl⟩
        · exact Or.inr ⟨q, Or.inr hq, hqi⟩
      · rintro (hc | ⟨q, (rfl | hq), hqi⟩)
        · exact Or.inl (Or.inl hc)
        · exact Or.inl (Or.inr hqi.symm)
        · exact Or.inr ⟨q, hq, hqi⟩

/-- `postingsAdd` preserves `Nodup`. -/
theorem nodup_postingsAdd {cs : List Nat} {ps : List Posting} (h : cs.Nodup) :
    (postingsAdd cs ps).Nodup := by
  induction ps generalizing cs with
  | nil => simpa [postingsAdd]
  | cons p ps ih =>
      simp only [postingsAdd, List.foldl_cons] at ih ⊢
      exact ih (nodup_addUniq h)

/-- Membership after one full scan of the index. -/
theorem mem_phaseFold {idx : SearchIndex} {test : List Char → Bool}
    {cs : List Nat} {i : Nat} :
    i ∈ phaseFold idx test cs ↔
      i ∈ cs ∨ ∃ e ∈ idx, test e.1 = true ∧ ∃ p ∈ e.2, p.articleIndex = i := by
  induction idx generalizing cs with
  | nil => simp [phaseFold]
  | cons e es ih =>
      simp only [phaseFold, List.foldl_cons] at ih ⊢
      rw [ih]
      by_cases ht : test e.1 = true
      · simp only [ht, if_true, mem_postingsAdd, List.mem_cons]
        constructor
        · rintro ((hc | ⟨p, hp, hpi⟩) | ⟨f, hf, htf, p, hp, hpi⟩)
          · exact Or.inl hc
          · exact Or.inr ⟨e, Or.inl rfl, ht, p, hp, hpi⟩
          · exact Or.inr ⟨f, Or.inr hf, htf, p, hp, hpi⟩
        · rintro (hc | ⟨f, (rfl | hf), htf, p, hp, hpi⟩)
          · exact Or.inl (Or.inl hc)
          · exact Or.inl (Or.inr ⟨p, hp, hpi⟩)
          · exact Or.inr ⟨f, hf, htf, p, hp, hpi⟩
      · simp only [if_neg ht]
        constructor
        · rintro (hc | ⟨f, hf, htf, hp⟩)
          · exact Or.inl hc
          · exact Or.inr ⟨f, List.mem_cons_of_mem _ hf, htf, hp⟩
        · rintro (hc | ⟨f, hf, htf, hp⟩)
          · exact Or.inl hc
          · rcases List.mem_cons.1 hf with rfl | hf
            · exact absurd htf ht
            · exact Or.inr ⟨f, hf, htf, hp⟩

/-- `phaseFold` preserves `Nodup`. -/
theorem nodup_phaseFold {idx : SearchIndex} {test : List Char → Bool}
    {cs : List Nat} (h : cs.Nodup) : (phaseFold idx test cs).Nodup := by
  induction idx generalizing cs with
  | nil => simpa [phaseFold]
  | cons e es ih =>
      simp only [phaseFold, List.foldl_cons] at ih ⊢
      by_cases ht : test e.1 = true
      · simp only [ht, if_true]
        exact ih (nodup_postingsAdd h)
      · simp only [if_neg ht]
        exact ih h

/-- Stable descending insertion permutes a `cons`. -/
theorem insDesc_perm (x : ScoredResult) (l : List ScoredResult) :
    (insDesc x l).Perm (x :: l) := by
  induction l with
  | nil => simp [insDesc]
  | cons y ys ih =>
      unfold insDesc
      by_cases h : x.score ≤ y.score
      · simp only [if_pos h]
        exact (ih.cons y).trans (List.Perm.swap x y ys)
      · simp [if_neg h]

/-- The stable score sort is a permutation. -/
theorem sortByScoreDesc_perm (l : List ScoredResult) :
    (sortByScoreDesc l).Perm l := by
  suffices h : ∀ (l acc : List ScoredResult),
      (l.foldl (fun acc x => insDesc x acc) acc).Perm (acc ++ l) by
    simpa using h l []
  intro l
  induction l with
  | nil => simp
  | cons x xs ih =>
      intro acc
      simp only [List.foldl_cons]
      exact (ih _).trans (((insDesc_perm x acc).append_right xs).trans
        List.perm_middle.symm)

/-- Stable ascending-length insertion permutes a `cons`. -/
theorem insLen_perm (x : List Char) (l : List (List Char)) :
    (insLen x l).Perm (x :: l) := by
  induction l with
  | nil => simp [insLen]
  | cons y ys ih =>
      unfold insLen
      by_cases h : y.length ≤ x.length
      · simp only [if_pos h]
        exact (ih.cons y).trans (List.Perm.swap x y ys)
      · simp [if_neg h]

/-- The stable length sort is a permutation. -/
theorem sortByLen_perm (l : List (List Char)) : (sortByLen l).Perm l := by
  suffices h : ∀ (l acc : List (List Char)),
      (l.foldl (fun acc x => insLen x acc) acc).Perm (acc ++ l) by
    simpa using h l []
  intro l
  induction l with
  | nil => simp
  | cons x xs ih =>
      intro acc
      simp only [List.foldl_cons]
      exact (ih _).trans (((insLen_perm x acc).append_right xs).trans
        List.perm_middle.symm)

/-- Ascending-length insertion preserves sortedness by length. -/
theorem pairwise_insLen {x : List Char} {l : List (List Char)}
    (h : l.Pairwise (fun a b => a.length ≤ b.length)) :
    (insLen x l).Pairwise (fun a b => a.length ≤ b.length) := by
  induction l with
  | nil => simp [insLen]
  | cons y ys ih =>
      rcases List.pairwise_cons.1 h with ⟨hy, hys⟩
      unfold insLen
      by_cases hle : y.length ≤ x.length
      · simp only [if_pos hle]
        refine List.pairwise_cons.2 ⟨?_, ih hys⟩
        intro z hz
        have hz2 := (insLen_perm x ys).mem_iff.1 hz
        rcases List.mem_cons.1 hz2 with rfl | hzys
        · exact hle
        · exact hy z hzys
      · simp only [if_neg hle]
        have hxy : x.length ≤ y.length := Nat.le_of_not_le hle
        refine List.pairwise_cons.2 ⟨?_, h⟩
        intro z hz
        rcases List.mem_cons.1 hz with rfl | hzys
        · exact hxy
        · exact hxy.trans (hy z hzys)

/-- The length sort produces a list sorted by ascending length. -/
theorem sortByLen_pairwise (l : List (List Char)) :
    (sortByLen l).Pairwise (fun a b => a.length ≤ b.length) := by
  suffices h : ∀ (l acc : List (List Char)),
      acc.Pairwise (fun a b => a.length ≤ b.length) →
      (l.foldl (fun acc x => insLen x acc) acc).Pairwise
        (fun a b => a.length ≤ b.length) by
    exact h l [] (List.Pairwise.nil)
  intro l
  induction l with
  | nil => intro acc h; simpa using h
  | cons x xs ih =>
      intro acc h
      simp only [List.foldl_cons]
      exact ih _ (pairwise_insLen h)

/-- Word characters are not quantifier characters. -/
theorem quantChar_ne_word {c : Char} (h : isWordChar c = true) :
    quantChar c = false := by
  cases hq : quantChar c
  · rfl
  · exfalso
    unfold quantChar at hq
    simp only [Bool.or_eq_true, decide_eq_true_eq] at hq
    rcases hq with (rfl | rfl) | rfl <;> exact absurd h (by decide)

/-- Helper: the invalid-quantifier scan fails on word-character tokens. -/
theorem regexInvalidAux_false :
    ∀ (rest : List Char) (prev : Char), rest.all isWordChar = true →
      regexInvalidAux prev rest = false
  | [], _, _ => rfl
  | c :: rest, prev, h => by
      simp only [List.all_cons, Bool.and_eq_true] at h
      unfold regexInvalidAux
      rw [quantChar_ne_word h.1, Bool.and_false, Bool.false_or]
      exact regexInvalidAux_false rest c h.2

/-- A word-character token always compiles as a regexp. -/
theorem regexTokenInvalid_false {w : List Char} (h : wordCharToken w = true) :
    regexTokenInvalid w = false := by
  cases w with
  | nil => rfl
  | cons c rest =>
      unfold wordCharToken at h
      simp only [List.all_cons, Bool.and_eq_true] at h
      show (quantChar c || regexInvalidAux c rest) = false
      rw [quantChar_ne_word h.1, Bool.false_or]
      exact regexInvalidAux_false rest c h.2

/-- If the token does not occur as a substring, its whole-word count is 0. -/
theorem countWholeWord_eq_zero {s w : List Char} (h : listContains s w = false) :
    countWholeWord s w = 0 := by
  by_contra hne
  have htrue := countWholeWord_pos_contains (Nat.pos_of_ne_zero hne)
  rw [htrue] at h
  simp at h

/-- The token scorer, on a word-character token, never throws and computes
the claim's per-token formula. -/
theorem tokenScoreE_eq {text w : List Char} (h : wordCharToken w = true) :
    tokenScoreE text w = Except.ok (3 * countWholeWord text w +
      (if countWholeWord text w = 0 ∧ listContains text w = true then 1 else 0)) := by
  unfold tokenScoreE
  by_cases hc : listContains text w = true
  · rw [if_pos hc]
    have hrx : ¬ (regexTokenInvalid w = true) := by
      rw [regexTokenInvalid_false h]
      exact Bool.false_ne_true
    rw [if_neg hrx]
    by_cases he : countWholeWord text w = 0 <;> simp [he, hc]
  · rw [if_neg hc]
    have hc2 : listContains text w = false := Bool.eq_false_iff.2 hc
    rw [countWholeWord_eq_zero hc2]
    simp [hc2]

/-- The token loop, on word-character tokens, never throws and accumulates
the claim's per-token sum. -/
theorem tokensFoldE_eq (text : List Char) :
    ∀ (ws : List (List Char)) (acc : Nat),
      (∀ w ∈ ws, wordCharToken w = true) →
      tokensFoldE text ws acc = Except.ok (acc +
        (ws.map (fun w => 3 * countWholeWord text w +
          (if countWholeWord text w = 0 ∧ listContains text w = true then 1
           else 0))).sum)
  | [], acc, _ => by simp [tokensFoldE]
  | w :: ws, acc, h => by
      have h1 := @tokenScoreE_eq text w (h w (List.mem_cons_self w ws))
      have h2 := tokensFoldE_eq text ws
        (acc + (3 * countWholeWord text w +
          (if countWholeWord text w = 0 ∧ listContains text w = true then 1 else 0)))
        (fun v hv => h v (List.mem_cons_of_mem w hv))
      simp only [tokensFoldE, h1, h2, List.map_cons, List.sum_cons]
      rw [Nat.add_assoc]

/-- On a nonempty query with nonempty word-character tokens, the per-field
scorer never throws and computes the claim's field formula. -/
theorem calculateTextScore_eq {q : List Char} {ws : List (List Char)}
    (hq : q ≠ []) (hws : ∀ w ∈ ws, w ≠ [] ∧ wordCharToken w = true)
    (text : List Char) :
    calculateTextScore text q ws = Except.ok (specTextScore text q ws) := by
  unfold calculateTextScore specTextScore
  by_cases hte : text.isEmpty = true
  · rw [if_pos hte]
    have htnil : text = [] := List.isEmpty_iff.1 hte
    subst htnil
    have hcq : listContains [] q = false := by
      cases hcc : listContains [] q
      · rfl
      · obtain ⟨l, r, hl⟩ := (listContains_eq_true [] q).1 hcc
        have h2 := List.append_eq_nil.mp hl.symm
        exact absurd (List.append_eq_nil.mp h2.1).2 hq
    have hiq : listIndexOf [] q = none := by
      have : ¬ (q.isEmpty = true) := by simpa [List.isEmpty_iff] using hq
      simp [listIndexOf, this]
    have hsum : (ws.map (fun w => 3 * countWholeWord [] w +
        (if countWholeWord [] w = 0 ∧ listContains [] w = true then 1
         else 0))).sum = 0 := by
      apply List.sum_eq_zero
      intro x hx
      obtain ⟨w, hw, rfl⟩ := List.mem_map.1 hx
      have hwe : listContains [] w = false := by
        cases hcc : listContains [] w
        · rfl
        · obtain ⟨l, r, hl⟩ := (listContains_eq_true [] w).1 hcc
          have h2 := List.append_eq_nil.mp hl.symm
          exact absurd (List.append_eq_nil.mp h2.1).2 (hws w hw).1
      rw [countWholeWord_eq_zero hwe, hwe]
      simp
    rw [hcq, hiq, hsum]
    simp
  · rw [if_neg hte]
    rw [tokensFoldE_eq text ws 0 (fun w hw => (hws w hw).2)]
    simp [Nat.zero_add]

/-- Keys after `indexInsert`: the old keys, or the inserted key. -/
theorem indexKeys_indexInsert {idx : SearchIndex} {w : List Char} {p : Posting}
    {k : List Char} (hk : k ∈ indexKeys (indexInsert w p idx)) :
    k ∈ indexKeys idx ∨ k = w := by
  induction idx with
  | nil =>
      simp only [indexInsert, indexKeys, List.map_cons, List.map_nil,
        List.mem_singleton] at hk
      exact Or.inr hk
  | cons e es ih =>
      unfold indexInsert at hk
      by_cases he : e.1 = w
      · rw [if_pos he] at hk
        simp only [indexKeys, List.map_cons, List.mem_cons] at hk ⊢
        rcases hk with h1 | h2
        · exact Or.inl (Or.inl h1)
        · exact Or.inl (Or.inr h2)
      · rw [if_neg he] at hk
        simp only [indexKeys, List.map_cons, List.mem_cons] at hk ⊢
        rcases hk with h1 | h2
        · exact Or.inl (Or.inl h1)
        · rcases ih h2 with h3 | h4
          · exact Or.inl (Or.inr h3)
          · exact Or.inr h4

/-- The per-article token loop of `createSearchIndex` preserves the
minimum-key-length invariant. -/
theorem keys_wordsFold (f : List Char → Posting) :
    ∀ (words : List (List Char)) (idx : SearchIndex),
      (∀ k ∈ indexKeys idx, 2 ≤ k.length) →
      ∀ k ∈ indexKeys (words.foldl (fun idx w =>
          if w.length < 2 then idx else indexInsert w (f w) idx) idx),
        2 ≤ k.length
  | [], _, h => h
  | w :: ws, idx, h => by
      simp only [List.foldl_cons]
      apply keys_wordsFold f ws
      by_cases hw : w.length < 2
      · rw [if_pos hw]
        exact h
      · rw [if_neg hw]
        intro k hk
        rcases indexKeys_indexInsert hk with hk2 | rfl
        · exact h k hk2
        · omega

/-- The article loop of `createSearchIndex` preserves the invariant. -/
theorem keys_articlesFold :
    ∀ (l : List (Nat × IndexedArticle)) (idx : SearchIndex),
      (∀ k ∈ indexKeys idx, 2 ≤ k.length) →
      ∀ k ∈ indexKeys (l.foldl (fun idx ia =>
          (splitOnChar ' ' ia.2.searchText).foldl
            (fun idx w =>
              if w.length < 2 then idx
              else indexInsert w ⟨ia.1, w, findWordPositions ia.2.searchText w⟩ idx)
            idx) idx),
        2 ≤ k.length
  | [], _, h => h
  | ia :: l, idx, h => by
      simp only [List.foldl_cons]
      exact keys_articlesFold l _
        (keys_wordsFold (fun w => ⟨ia.1, w, findWordPositions ia.2.searchText w⟩)
          (splitOnChar ' ' ia.2.searchText) idx h)

/-- Inversion of an own-key lookup: it names an entry of the index. -/
theorem indexLookup_own {idx : SearchIndex} {w : List Char} {ps : List Posting}
    (h : indexLookup idx w = PropLookup.own ps) :
    ∃ e ∈ idx, e.1 = w ∧ e.2 = ps := by
  unfold indexLookup at h
  cases hf : idx.find? (fun e => e.1 == w) with
  | none =>
      rw [hf] at h
      by_cases hp : w ∈ protoProps
      · rw [if_pos hp] at h
        cases h
      · rw [if_neg hp] at h
        cases h
  | some e =>
      rw [hf] at h
      have hkey : e.1 = w := by simpa using List.find?_some hf
      exact ⟨e, List.mem_of_find?_eq_some hf, hkey, PropLookup.own.inj h⟩

/-- Membership after the two scan phases for one query word. -/
theorem mem_candPhases {idx : SearchIndex} {cs : List Nat} {w : List Char}
    {i : Nat} :
    i ∈ candPhases idx cs w ↔
      i ∈ cs ∨
      (∃ e ∈ idx, (w.isPrefixOf e.1 || e.1.isPrefixOf w) = true ∧
        ∃ p ∈ e.2, p.articleIndex = i) ∨
      (3 < w.length ∧ ∃ e ∈ idx,
        (listContains e.1 w || listContains w e.1) = true ∧
        ∃ p ∈ e.2, p.articleIndex = i) := by
  unfold candPhases
  by_cases hlen : w.length > 3
  · rw [if_pos hlen]
    rw [mem_phaseFold, mem_phaseFold]
    constructor
    · rintro ((hc | hb) | hcsub)
      · exact Or.inl hc
      · exact Or.inr (Or.inl hb)
      · exact Or.inr (Or.inr ⟨hlen, hcsub⟩)
    · rintro (hc | hb | ⟨_, hcsub⟩)
      · exact Or.inl (Or.inl hc)
      · exact Or.inl (Or.inr hb)
      · exact Or.inr hcsub
  · rw [if_neg hlen]
    rw [mem_phaseFold]
    constructor
    · rintro (hc | hb)
      · exact Or.inl hc
      · exact Or.inr (Or.inl hb)
    · rintro (hc | hb | ⟨hl, _⟩)
      · exact Or.inl hc
      · exact Or.inr hb
      · exact absurd hl hlen

/-- The scan phases alone already realize the claim's per-word union: the
exact stage only re-adds postings the prefix scan reaches (`w` is a prefix
of itself). -/
theorem candPhases_or_iff_claim {idx : SearchIndex} {w : List Char} {i : Nat} :
    ((∃ e ∈ idx, (w.isPrefixOf e.1 || e.1.isPrefixOf w) = true ∧
       ∃ p ∈ e.2, p.articleIndex = i) ∨
     (3 < w.length ∧ ∃ e ∈ idx,
       (listContains e.1 w || listContains w e.1) = true ∧
       ∃ p ∈ e.2, p.articleIndex = i)) ↔
    ClaimWordCandidate idx w i := by
  constructor
  · rintro (⟨e, he, hcond, p, hp, hpi⟩ | ⟨hl, e, he, hcond, p, hp, hpi⟩)
    · -- prefix stage
      rw [Bool.or_eq_true] at hcond
      rcases hcond with hck | hkc
      · exact Or.inr (Or.inl ⟨e.1,
          Or.inr ((isPrefixOf_eq_true w e.1).1 hck),
          e, he, rfl, p, hp, hpi⟩)
      · exact Or.inr (Or.inl ⟨e.1,
          Or.inl ((isPrefixOf_eq_true e.1 w).1 hkc),
          e, he, rfl, p, hp, hpi⟩)
    · -- substring stage
      rw [Bool.or_eq_true] at hcond
      rcases hcond with hck | hkc
      · exact Or.inr (Or.inr ⟨hl, e.1,
          Or.inl ((listContains_eq_true e.1 w).1 hck),
          e, he, rfl, p, hp, hpi⟩)
      · exact Or.inr (Or.inr ⟨hl, e.1,
          Or.inr ((listContains_eq_true w e.1).1 hkc),
          e, he, rfl, p, hp, hpi⟩)
  · rintro (⟨e, he, hkey, p, hp, hpi⟩ |
      ⟨k, hrel, e, he, hkey, p, hp, hpi⟩ | ⟨hl, k, hrel, e, he, hkey, p, hp, hpi⟩)
    · -- claim (a) is reached through the prefix scan, which covers every
      -- entry keyed `w`, not just the first
      refine Or.inl ⟨e, he, ?_, p, hp, hpi⟩
      have hself : w.isPrefixOf e.1 = true :=
        (isPrefixOf_eq_true w e.1).2 ⟨[], by rw [hkey, List.append_nil]⟩
      rw [hself, Bool.true_or]
    · -- claim (b)
      refine Or.inl ⟨e, he, ?_, p, hp, hpi⟩
      rcases hrel with ⟨t, ht⟩ | ⟨t, ht⟩
      · have hkw : e.1.isPrefixOf w = true :=
          (isPrefixOf_eq_true e.1 w).2 ⟨t, hkey ▸ ht⟩
        rw [hkw, Bool.or_true]
      · have hwk : w.isPrefixOf e.1 = true :=
          (isPrefixOf_eq_true w e.1).2 ⟨t, hkey ▸ ht⟩
        rw [hwk, Bool.true_or]
    · -- claim (c)
      refine Or.inr ⟨hl, e, he, ?_, p, hp, hpi⟩
      rcases hrel with ⟨l, r, hlr⟩ | ⟨l, r, hlr⟩
      · have hck : listContains e.1 w = true :=
          (listContains_eq_true e.1 w).2 ⟨l, r, hkey ▸ hlr⟩
        rw [hck, Bool.true_or]
      · have hwc : listContains w e.1 = true :=
          (listContains_eq_true w e.1).2 ⟨l, r, hkey ▸ hlr⟩
        rw [hwc, Bool.or_true]

/-- A word step that returns characterizes its output as the claim's
per-word union over the accumulator. -/
theorem candWordStep_ok_iff {idx : SearchIndex} {cs : List Nat} {w : List Char}
    {cs2 : List Nat} (h : candWordStep idx cs w = Except.ok cs2) (i : Nat) :
    i ∈ cs2 ↔ i ∈ cs ∨ ClaimWordCandidate idx w i := by
  unfold candWordStep at h
  cases hl : indexLookup idx w with
  | inherited =>
      rw [hl] at h
      cases h
  | own ps =>
      rw [hl] at h
      rw [show cs2 = candPhases idx (postingsAdd cs ps) w from
        (Except.ok.inj h).symm]
      rw [mem_candPhases, mem_postingsAdd]
      constructor
      · rintro ((hc | hp) | hBC)
        · exact Or.inl hc
        · obtain ⟨e, he, hkey, hps⟩ := indexLookup_own hl
          obtain ⟨p, hpm, hpi⟩ := hp
          exact Or.inr (Or.inl ⟨e, he, hkey, p, hps ▸ hpm, hpi⟩)
        · exact Or.inr (candPhases_or_iff_claim.1 hBC)
      · rintro (hc | hclaim)
        · exact Or.inl (Or.inl hc)
        · exact Or.inr (candPhases_or_iff_claim.2 hclaim)
  | absent =>
      rw [hl] at h
      rw [show cs2 = candPhases idx cs w from (Except.ok.inj h).symm]
      rw [mem_candPhases]
      constructor
      · rintro (hc | hBC)
        · exact Or.inl hc
        · exact Or.inr (candPhases_or_iff_claim.1 hBC)
      · rintro (hc | hclaim)
        · exact Or.inl hc
        · exact Or.inr (candPhases_or_iff_claim.2 hclaim)

/-- The scan phases preserve `Nodup`. -/
theorem nodup_candPhases {idx : SearchIndex} {cs : List Nat} {w : List Char}
    (h : cs.Nodup) : (candPhases idx cs w).Nodup := by
  unfold candPhases
  have h2 := @nodup_phaseFold idx
    (fun k => w.isPrefixOf k || k.isPrefixOf w) _ h
  by_cases hlen : w.length > 3
  · rw [if_pos hlen]
    exact nodup_phaseFold h2
  · rw [if_neg hlen]
    exact h2

/-- A word step that returns preserves `Nodup`. -/
theorem candWordStep_ok_nodup {idx : SearchIndex} {cs : List Nat}
    {w : List Char} {cs2 : List Nat} (h : candWordStep idx cs w = Except.ok cs2)
    (hnd : cs.Nodup) : cs2.Nodup := by
  unfold candWordStep at h
  cases hl : indexLookup idx w with
  | inherited =>
      rw [hl] at h
      cases h
  | own ps =>
      rw [hl] at h
      rw [show cs2 = candPhases idx (postingsAdd cs ps) w from
        (Except.ok.inj h).symm]
      exact nodup_candPhases (nodup_postingsAdd hnd)
  | absent =>
      rw [hl] at h
      rw [show cs2 = candPhases idx cs w from (Except.ok.inj h).symm]
      exact nodup_candPhases hnd

/-- Membership in a candidate loop that returned. -/
theorem candFoldE_ok_iff {idx : SearchIndex} :
    ∀ (ws : List (List Char)) (cs out : List Nat),
      candFoldE idx ws cs = Except.ok out →
      ∀ i, i ∈ out ↔ i ∈ cs ∨ ∃ w ∈ ws, ClaimWordCandidate idx w i
  | [], cs, out, h, i => by
      unfold candFoldE at h
      rw [show out = cs from (Except.ok.inj h).symm]
      simp
  | w :: ws, cs, out, h, i => by
      unfold candFoldE at h
      cases hstep : candWordStep idx cs w with
      | error u =>
          rw [hstep] at h
          cases h
      | ok cs1 =>
          rw [hstep] at h
          rw [candFoldE_ok_iff ws cs1 out h i, candWordStep_ok_iff hstep i]
          constructor
          · rintro ((hc | hw) | ⟨v, hv, hcl⟩)
            · exact Or.inl hc
            · exact Or.inr ⟨w, List.mem_cons_self w ws, hw⟩
            · exact Or.inr ⟨v, List.mem_cons_of_mem w hv, hcl⟩
          · rintro (hc | ⟨v, hv, hcl⟩)
            · exact Or.inl (Or.inl hc)
            · rcases List.mem_cons.1 hv with rfl | hv2
              · exact Or.inl (Or.inr hcl)
              · exact Or.inr ⟨v, hv2, hcl⟩

/-- A candidate loop that returned produced a duplicate-free list. -/
theorem candFoldE_ok_nodup {idx : SearchIndex} :
    ∀ (ws : List (List Char)) (cs out : List Nat),
      candFoldE idx ws cs = Except.ok out → cs.Nodup → out.Nodup
  | [], cs, out, h, hnd => by
      unfold candFoldE at h
      rw [show out = cs from (Except.ok.inj h).symm]
      exact hnd
  | w :: ws, cs, out, h, hnd => by
      unfold candFoldE at h
      cases hstep : candWordStep idx cs w with
      | error u =>
          rw [hstep] at h
          cases h
      | ok cs1 =>
          rw [hstep] at h
          exact candFoldE_ok_nodup ws cs1 out h (candWordStep_ok_nodup hstep hnd)

/-- When no query word hits an inherited property, the candidate loop
returns. -/
theorem candFoldE_exists {idx : SearchIndex} :
    ∀ (ws : List (List Char)) (cs : List Nat),
      (∀ w ∈ ws, indexLookup idx w ≠ PropLookup.inherited) →
      ∃ out, candFoldE idx ws cs = Except.ok out
  | [], cs, _ => ⟨cs, rfl⟩
  | w :: ws, cs, h => by
      have hstep : ∃ cs1, candWordStep idx cs w = Except.ok cs1 := by
        unfold candWordStep
        cases hl : indexLookup idx w with
        | inherited => exact absurd hl (h w (List.mem_cons_self w ws))
        | own ps => exact ⟨_, rfl⟩
        | absent => exact ⟨_, rfl⟩
      obtain ⟨cs1, hcs1⟩ := hstep
      obtain ⟨out, hout⟩ := candFoldE_exists ws cs1
        (fun v hv => h v (List.mem_cons_of_mem w hv))
      refine ⟨out, ?_⟩
      unfold candFoldE
      rw [hcs1]
      exact hout

/-- Everything `filterME` keeps comes from its input. -/
theorem filterME_subset {p : α → Except Unit Bool} :
    ∀ {l out : List α}, filterME p l = Except.ok out → ∀ x ∈ out, x ∈ l := by
  intro l
  induction l with
  | nil =>
      intro out h x hx
      unfold filterME at h
      rw [show out = [] from (Except.ok.inj h).symm] at hx
      cases hx
  | cons y ys ih =>
      intro out h x hx
      unfold filterME at h
      cases hp : p y with
      | error u => rw [hp] at h; cases h
      | ok b =>
          rw [hp] at h
          cases hrest : filterME p ys with
          | error u => rw [hrest] at h; cases h
          | ok rest =>
              rw [hrest] at h
              have hout : out = if b then y :: rest else rest := (Except.ok.inj h).symm
              subst hout
              by_cases hb : b = true
              · rw [if_pos hb] at hx
                rcases List.mem_cons.1 hx with rfl | hx2
                · exact List.mem_cons_self x ys
                · exact List.mem_cons_of_mem y (ih hrest x hx2)
              · rw [if_neg hb] at hx
                exact List.mem_cons_of_mem y (ih hrest x hx)

/-- The section pass keeps only input elements. -/
theorem sectionPass_subset {res : List ScoredResult} {f : Filters} :
    ∀ r ∈ sectionPass res f, r ∈ res := by
  intro r hr
  unfold sectionPass at hr
  cases hs : f.sectionF with
  | none => rw [hs] at hr; exact hr
  | some s => rw [hs] at hr; exact List.mem_of_mem_filter hr

/-- The date pass keeps only input elements. -/
theorem datePass_subset {res : List ScoredResult} {f : Filters} :
    ∀ r ∈ datePass res f, r ∈ res := by
  intro r hr
  unfold datePass at hr
  cases hs : f.dateRange with
  | none => rw [hs] at hr; exact hr
  | some se => rw [hs] at hr; exact List.mem_of_mem_filter hr

/-- The author pass keeps only input elements. -/
theorem authorPass_subset {res out : List ScoredResult} {f : Filters}
    (h : authorPass res f = Except.ok out) : ∀ r ∈ out, r ∈ res := by
  unfold authorPass at h
  cases hs : f.author with
  | none =>
      rw [hs] at h
      intro r hr
      rw [show out = res from (Except.ok.inj h).symm] at hr
      exact hr
  | some au =>
      rw [hs] at h
      exact filterME_subset h

/-- The categories pass keeps only input elements. -/
theorem categoriesPass_subset {res : List ScoredResult} {f : Filters} :
    ∀ r ∈ categoriesPass res f, r ∈ res := by
  intro r hr
  unfold categoriesPass at hr
  cases hs : f.categories with
  | none => rw [hs] at hr; exact hr
  | some fc =>
      simp only [hs] at hr
      by_cases hfc : fc.isEmpty = true
      · rw [if_pos hfc] at hr
        exact hr
      · rw [if_neg hfc] at hr
        exact List.mem_of_mem_filter hr

/-- The tags pass keeps only input elements. -/
theorem tagsPass_subset {res : List ScoredResult} {f : Filters} :
    ∀ r ∈ tagsPass res f, r ∈ res := by
  intro r hr
  unfold tagsPass at hr
  cases hs : f.tags with
  | none => rw [hs] at hr; exact hr
  | some ft =>
      simp only [hs] at hr
      by_cases hft : ft.isEmpty = true
      · rw [if_pos hft] at hr
        exact hr
      · rw [if_neg hft] at hr
        exact List.mem_of_mem_filter hr

/-- Everything `applyFilters` keeps comes from its input. -/
theorem applyFilters_subset {res out : List ScoredResult} {f : Filters}
    (h : applyFilters res f = Except.ok out) : ∀ r ∈ out, r ∈ res := by
  unfold applyFilters at h
  cases ha : authorPass (datePass (sectionPass res f) f) f with
  | error u => rw [ha] at h; cases h
  | ok r3 =>
      rw [ha] at h
      intro r hr
      rw [show out = tagsPass (categoriesPass r3 f) f from (Except.ok.inj h).symm] at hr
      exact sectionPass_subset r (datePass_subset r (authorPass_subset ha r
        (categoriesPass_subset r (tagsPass_subset r hr))))

/-- Every result kept by the scoring loop refers to a stored article, whose
record it embeds unchanged. -/
theorem scoreLoop_provenance {data : List IndexedArticle} {now : Int}
    {q : List Char} {ws : List (List Char)} :
    ∀ (cands : List Nat) (acc out : List ScoredResult),
      scoreLoop data now q ws cands acc = Except.ok out →
      (∀ r ∈ acc, ∃ i a, data.get? i = some a ∧ r.toIndexedArticle = a) →
      ∀ r ∈ out, ∃ i a, data.get? i = some a ∧ r.toIndexedArticle = a
  | [], acc, out, h, hacc => by
      unfold scoreLoop at h
      rw [show out = acc from (Except.ok.inj h).symm]
      exact hacc
  | i :: rest, acc, out, h, hacc => by
      unfold scoreLoop at h
      cases hget : data.get? i with
      | none =>
          simp only [hget] at h
          exact scoreLoop_provenance rest acc out h hacc
      | some a =>
          simp only [hget] at h
          cases hsc : articleScoreE a now q ws with
          | error u =>
              simp only [hsc] at h
              exact Except.noConfusion h
          | ok sc =>
              simp only [hsc] at h
              refine scoreLoop_provenance rest _ out h ?_
              intro r hr
              by_cases hpos : 0 < sc
              · rw [if_pos hpos] at hr
                rcases List.mem_append.1 hr with hr2 | hr2
                · exact hacc r hr2
                · rw [List.mem_singleton.1 hr2]
                  exact ⟨i, a, hget, rfl⟩
              · rw [if_neg hpos] at hr
                exact hacc r hr

/-- Inversion of a successful scoring stage: the engine held data, and the
scored list came from the scoring loop over it. -/
theorem scoredCandidates_ok {e : Engine} {now : Int} {q : String}
    {scored : List ScoredResult}
    (h : scoredCandidates e now q = Except.ok scored) :
    ∃ data cands, e.searchData = some data ∧
      scoreLoop data now (trimChars (lowerL q.data))
        (splitWsTokens (trimChars (lowerL q.data))) cands [] =
        Except.ok scored := by
  unfold scoredCandidates at h
  cases hidx : e.searchIndex with
  | none =>
      simp only [hidx] at h
      cases h
  | some idx =>
      simp only [hidx] at h
      cases hc : getCandidateArticles idx
          (splitWsTokens (trimChars (lowerL q.data))) with
      | error u =>
          rw [hc] at h
          cases h
      | ok cands =>
          rw [hc] at h
          cases hdata : e.searchData with
          | none =>
              rw [hdata] at h
              cases h
          | some data =>
              rw [hdata] at h
              exact ⟨data, cands, rfl, h⟩

/-- Decomposition of a `search` result: it came through scoring and
filtering. -/
theorem search_mem_decomp (e : Engine) (now : Int) (q : String) (f : Filters)
    (r : ScoredResult) (hr : r ∈ search e now q f) :
    ∃ scored filtered, scoredCandidates e now q = Except.ok scored ∧
      applyFilters scored f = Except.ok filtered ∧ r ∈ filtered := by
  unfold search at hr
  by_cases hg : (trimChars q.data).length < 2
  · rw [if_pos hg] at hr
    cases hr
  · rw [if_neg hg] at hr
    cases hb : searchBody e now q f with
    | error u =>
        rw [hb] at hr
        cases hr
    | ok out =>
        rw [hb] at hr
        unfold searchBody at hb
        cases hs : scoredCandidates e now q with
        | error u =>
            simp only [hs] at hb
            exact Except.noConfusion hb
        | ok scored =>
            simp only [hs] at hb
            cases hf2 : applyFilters scored f with
            | error u =>
                simp only [hf2] at hb
                exact Except.noConfusion hb
            | ok filtered =>
                simp only [hf2] at hb
                rw [show out = (sortByScoreDesc filtered).take 20 from
                  (Except.ok.inj hb).symm] at hr
                exact ⟨scored, filtered, rfl, hf2,
                  (sortByScoreDesc_perm filtered).mem_iff.1
                    (List.take_subset 20 _ hr)⟩

/-- Taking as many elements as `take 3` yields is the same as `take 3`. -/
theorem take_len_take3 {α : Type _} (l : List α) :
    l.take ((l.take 3).length) = l.take 3 := by
  rw [List.length_take]
  rcases Nat.le_total l.length 3 with h | h
  · rw [Nat.min_eq_right h, List.take_length, List.take_of_length_le h]
  · rw [Nat.min_eq_left h]

/-- Elements of the index-key suggestion pool: the accumulator, or a key
starting with the query. -/
theorem mem_keyPool {nq : List Char} :
    ∀ (idx : SearchIndex) (acc : List (List Char)) {x : List Char},
      x ∈ idx.foldl (fun acc entry =>
        if nq.isPrefixOf entry.1 then addUniq acc entry.1 else acc) acc →
      x ∈ acc ∨ (x ∈ indexKeys idx ∧ nq.isPrefixOf x = true)
  | [], _, _, h => Or.inl h
  | e :: es, acc, x, h => by
      simp only [List.foldl_cons] at h
      rcases mem_keyPool es _ h with h2 | ⟨hk, hpre⟩
      · by_cases hc : nq.isPrefixOf e.1 = true
        · rw [if_pos hc] at h2
          rcases mem_addUniq.1 h2 with h3 | rfl
          · exact Or.inl h3
          · exact Or.inr ⟨List.mem_cons_self _ _, hc⟩
        · rw [if_neg hc] at h2
          exact Or.inl h2
      · exact Or.inr ⟨List.mem_cons_of_mem _ hk, hpre⟩

/-- The index-key pool fold preserves `Nodup`. -/
theorem nodup_keyPool {nq : List Char} :
    ∀ (idx : SearchIndex) (acc : List (List Char)), acc.Nodup →
      (idx.foldl (fun acc entry =>
        if nq.isPrefixOf entry.1 then addUniq acc entry.1 else acc) acc).Nodup
  | [], _, h => h
  | e :: es, acc, h => by
      simp only [List.foldl_cons]
      apply nodup_keyPool es
      by_cases hc : nq.isPrefixOf e.1 = true
      · rw [if_pos hc]
        exact nodup_addUniq h
      · rw [if_neg hc]
        exact h

/-- Elements of the per-title phrase fold: the accumulator, or a phrase
built at a qualifying word. -/
theorem mem_titleFoldAux {titleWords : List (List Char)} {nq : List Char}
    {qlen : Nat} :
    ∀ (l : List (Nat × List Char)) (acc : List (List Char)) {x : List Char},
      x ∈ l.foldl (fun acc2 iw =>
        if listContains iw.2 nq && iw.2.length > 3 then
          let phrase := joinSpace ((titleWords.drop iw.1).take 3)
          if qlen < phrase.length then addUniq acc2 phrase else acc2
        else acc2) acc →
      x ∈ acc ∨ ∃ iw ∈ l, listContains iw.2 nq = true ∧ 3 < iw.2.length ∧
        x = joinSpace ((titleWords.drop iw.1).take 3) ∧ qlen < x.length
  | [], _, _, h => Or.inl h
  | iw :: l, acc, x, h => by
      simp only [List.foldl_cons] at h
      rcases mem_titleFoldAux l _ h with h2 | ⟨jw, hjw, hrest⟩
      · by_cases hc : (listContains iw.2 nq && iw.2.length > 3) = true
        · simp only [if_pos hc] at h2
          by_cases hq : qlen < (joinSpace ((titleWords.drop iw.1).take 3)).length
          · rw [if_pos hq] at h2
            rcases mem_addUniq.1 h2 with h3 | rfl
            · exact Or.inl h3
            · rw [Bool.and_eq_true, decide_eq_true_eq] at hc
              exact Or.inr ⟨iw, List.mem_cons_self _ _, hc.1, hc.2, rfl, hq⟩
          · rw [if_neg hq] at h2
            exact Or.inl h2
        · simp only [if_neg hc] at h2
          exact Or.inl h2
      · exact Or.inr ⟨jw, List.mem_cons_of_mem _ hjw, hrest⟩

/-- The per-title phrase fold preserves `Nodup`. -/
theorem nodup_titleFoldAux {titleWords : List (List Char)} {nq : List Char}
    {qlen : Nat} :
    ∀ (l : List (Nat × List Char)) (acc : List (List Char)), acc.Nodup →
      (l.foldl (fun acc2 iw =>
        if listContains iw.2 nq && iw.2.length > 3 then
          let phrase := joinSpace ((titleWords.drop iw.1).take 3)
          if qlen < phrase.length then addUniq acc2 phrase else acc2
        else acc2) acc).Nodup
  | [], _, h => h
  | iw :: l, acc, h => by
      simp only [List.foldl_cons]
      apply nodup_titleFoldAux l
      by_cases hc : (listContains iw.2 nq && iw.2.length > 3) = true
      · simp only [if_pos hc]
        by_cases hq : qlen < (joinSpace ((titleWords.drop iw.1).take 3)).length
        · rw [if_pos hq]
          exact nodup_addUniq h
        · rw [if_neg hq]
          exact h
      · simp only [if_neg hc]
        exact h

/-- Elements contributed by one article's title pass. -/
theorem mem_titleSuggestions {nq : List Char} {qlen : Nat} {a : IndexedArticle}
    {acc : List (List Char)} {x : List Char}
    (h : x ∈ titleSuggestions nq qlen a acc) :
    x ∈ acc ∨ (listContains (lowerL a.title.data) nq = true ∧
      ∃ iw ∈ (splitOnChar ' ' (lowerL a.title.data)).enum,
        listContains iw.2 nq = true ∧ 3 < iw.2.length ∧
        x = joinSpace (((splitOnChar ' ' (lowerL a.title.data)).drop iw.1).take 3) ∧
        qlen < x.length) := by
  simp only [titleSuggestions] at h
  by_cases hc : listContains (lowerL a.title.data) nq = true
  · rw [if_pos hc] at h
    rcases mem_titleFoldAux _ _ h with h2 | h3
    · exact Or.inl h2
    · exact Or.inr ⟨hc, h3⟩
  · rw [if_neg hc] at h
    exact Or.inl h

/-- The title pass preserves `Nodup`. -/
theorem nodup_titleSuggestions {nq : List Char} {qlen : Nat}
    {a : IndexedArticle} {acc : List (List Char)} (h : acc.Nodup) :
    (titleSuggestions nq qlen a acc).Nodup := by
  simp only [titleSuggestions]
  by_cases hc : listContains (lowerL a.title.data) nq = true
  · rw [if_pos hc]
    exact nodup_titleFoldAux _ _ h
  · rw [if_neg hc]
    exact h

/-- Elements of the article loop of `getSuggestions`. -/
theorem mem_dataFold {nq : List Char} {qlen : Nat} :
    ∀ (data : List IndexedArticle) (pool : List (List Char)) {x : List Char},
      x ∈ data.foldl (fun acc a => titleSuggestions nq qlen a acc) pool →
      x ∈ pool ∨ ∃ a ∈ data, listContains (lowerL a.title.data) nq = true ∧
        ∃ iw ∈ (splitOnChar ' ' (lowerL a.title.data)).enum,
          listContains iw.2 nq = true ∧ 3 < iw.2.length ∧
          x = joinSpace (((splitOnChar ' ' (lowerL a.title.data)).drop iw.1).take 3) ∧
          qlen < x.length
  | [], _, _, h => Or.inl h
  | a :: data, pool, x, h => by
      simp only [List.foldl_cons] at h
      rcases mem_dataFold data _ h with h2 | ⟨b, hb, hrest⟩
      · rcases mem_titleSuggestions h2 with h3 | h4
        · exact Or.inl h3
        · exact Or.inr ⟨a, List.mem_cons_self _ _, h4⟩
      · exact Or.inr ⟨b, List.mem_cons_of_mem _ hb, hrest⟩

/-- The article loop preserves `Nodup`. -/
theorem nodup_dataFold {nq : List Char} {qlen : Nat} :
    ∀ (data : List IndexedArticle) (pool : List (List Char)), pool.Nodup →
      (data.foldl (fun acc a => titleSuggestions nq qlen a acc) pool).Nodup
  | [], _, h => h
  | a :: data, pool, h => by
      simp only [List.foldl_cons]
      exact nodup_dataFold data _ (nodup_titleSuggestions h)

/-! ### Claim theorems -/

/-- C1: for every candidate article and query (nonempty, with nonempty
word-character tokens — the alphabet on which the JS word-boundary regexp
denotes whole-word matching and never throws), the relevance score computed
by the scorer equals the claim's weighted sum of per-field text scores over
title ×10, summary ×5, content ×2 (when present), tags ×3 (when present),
categories ×3 (when present), section ×1 and author ×1 (when present), plus
the recency bonus (2 within a day, else 1 within 7 days) and 1 when
featured; the per-field score being 10 for a full-query substring, 3 per
whole-word token occurrence, a flat 1 for a substring-only token occurrence
and `max(0, 5 - floor(firstMatchOffset / 100))` when the full query
occurs. -/
theorem claim1_score_formula (a : IndexedArticle) (now : Int) (q : List Char)
    (ws : List (List Char)) (hq : q ≠ [])
    (hws : ∀ w ∈ ws, w ≠ [] ∧ wordCharToken w = true) :
    articleScoreE a now q ws = Except.ok (specArticleScore a now q ws) := by
  have hcs := calculateTextScore_eq hq hws
  cases hc : a.content <;> cases htg : a.tags <;> cases hcg : a.categories <;>
    cases hau : a.authorName <;>
    · simp only [articleScoreE, articleFields, weightedFieldsE, hcs, hc, htg, hcg, hau,
        Option.map_some', Option.map_none', specArticleScore, recencyBonus,
        Except.ok.injEq]
      omega

/-- Witness for C1 at a concrete article and the query "rate cut". -/
theorem claim1_score_formula_witness :
    articleScoreE artScore tNow ("rate cut").data [("rate").data, ("cut").data]
      = Except.ok (specArticleScore artScore tNow ("rate cut").data
          [("rate").data, ("cut").data]) :=
  claim1_score_formula artScore tNow ("rate cut").data
    [("rate").data, ("cut").data] (by decide) (by decide)

/-- C3 counterexample: on an engine whose index build failed or has not
completed (both fields still `null`), `getSuggestions` of a well-formed
query throws (a `TypeError` from `Object.keys(null)`) instead of returning
an empty result, so not every public operation catches internal failures at
its boundary. -/
theorem claim3_counterexample :
    getSuggestions engNull "ab" = Except.error () := rfl

/-- C3 amended: `search` catches every internal failure at its boundary and
downgrades it to an empty result, but `getSuggestions` does so only via its
short-query guard: on an engine whose index is absent it propagates the
failure to the caller. -/
theorem claim3_amended :
    (∀ (e : Engine) (now : Int) (q : String) (f : Filters),
      searchBody e now q f = Except.error () → search e now q f = []) ∧
    (∀ (e : Engine) (q : String), 2 ≤ q.data.length → e.searchIndex = none →
      getSuggestions e q = Except.error ()) := by
  constructor
  · intro e now q f h
    unfold search
    by_cases hg : (trimChars q.data).length < 2
    · rw [if_pos hg]
    · rw [if_neg hg, h]
  · intro e q hlen hidx
    unfold getSuggestions
    have hnl : ¬ (q.data.length < 2) := by omega
    rw [if_neg hnl, hidx]

/-- Witness for C3 amended at a failed-build engine. -/
theorem claim3_amended_witness :
    search engNull tNow "ab" noFilters = [] ∧
    getSuggestions engNull "ab" = Except.error () :=
  ⟨claim3_amended.1 engNull tNow "ab" noFilters rfl,
   claim3_amended.2 engNull "ab" (by decide) rfl⟩

/-- C4 counterexample: the query consisting of a tab and the letter `a` has
trimmed length 1, yet over a corpus whose only title is `"x\tab"` (a tab
inside a word) `getSuggestions` returns that title as a suggestion rather
than the empty list — `getSuggestions` checks the raw, untrimmed length. -/
theorem claim4_counterexample :
    (trimChars ("\ta").data).length < 2 ∧
    getSuggestions engTab "\ta" ≠ Except.ok [] := by
  refine ⟨by decide, ?_⟩
  intro h
  have he : getSuggestions engTab "\ta" = Except.ok [("x\tab").data] := rfl
  rw [he] at h
  exact List.cons_ne_nil _ _ (Except.ok.inj h)

/-- C4 amended: `search` returns `[]` for every query of trimmed length
below 2; `getSuggestions` returns `[]` for every query of raw length below
2 (it never trims, so a padded short query can still produce
suggestions). -/
theorem claim4_amended :
    (∀ (e : Engine) (now : Int) (q : String) (f : Filters),
      (trimChars q.data).length < 2 → search e now q f = []) ∧
    (∀ (e : Engine) (q : String), q.data.length < 2 →
      getSuggestions e q = Except.ok []) := by
  constructor
  · intro e now q f h
    unfold search
    rw [if_pos h]
  · intro e q h
    unfold getSuggestions
    rw [if_pos h]

/-- Witness for C4 amended at the one-letter query. -/
theorem claim4_amended_witness :
    search engTab tNow "a" noFilters = [] ∧
    getSuggestions engTab "a" = Except.ok [] :=
  ⟨claim4_amended.1 engTab tNow "a" noFilters (by decide),
   claim4_amended.2 engTab "a" (by decide)⟩

/-- C5: for every partial query of at least 2 characters over a built
engine, `getSuggestions` returns at most 8 duplicate-free strings sorted by
ascending length, each drawn from the union of (a) index tokens starting
with the lower-cased query and (b) 1-to-3-word title phrases starting at a
word that contains the query and is longer than 3 characters, each phrase
strictly longer than the query. -/
theorem claim5_suggestions (idx : SearchIndex) (data : List IndexedArticle)
    (q : String) (hq : 2 ≤ q.data.length) :
    ∃ out, getSuggestions ⟨some data, some idx⟩ q = Except.ok out ∧
      out.length ≤ 8 ∧
      out.Pairwise (fun a b => a.length ≤ b.length) ∧
      out.Nodup ∧
      ∀ x ∈ out, SuggestionFromIndex idx (lowerL q.data) x ∨
        SuggestionFromTitle data q.data (lowerL q.data) x := by
  have hred : getSuggestions ⟨some data, some idx⟩ q = Except.ok
      (sortByLen ((data.foldl
        (fun acc a => titleSuggestions (lowerL q.data) q.data.length a acc)
        (idx.foldl (fun acc entry =>
          if (lowerL q.data).isPrefixOf entry.1 then addUniq acc entry.1 else acc)
          [])).take 8)) := by
    unfold getSuggestions
    rw [if_neg (by omega)]
  refine ⟨_, hred, ?_, ?_, ?_, ?_⟩
  · have h1 := (sortByLen_perm ((data.foldl
        (fun acc a => titleSuggestions (lowerL q.data) q.data.length a acc)
        (idx.foldl (fun acc entry =>
          if (lowerL q.data).isPrefixOf entry.1 then addUniq acc entry.1 else acc)
          [])).take 8)).length_eq
    rw [h1]
    exact List.length_take_le 8 _
  · exact sortByLen_pairwise _
  · refine (sortByLen_perm _).nodup_iff.2 ?_
    exact (List.take_sublist 8 _).nodup
      (nodup_dataFold data _ (nodup_keyPool idx [] List.nodup_nil))
  · intro x hx
    have hx2 := (sortByLen_perm _).mem_iff.1 hx
    have hx3 := List.take_subset 8 _ hx2
    rcases mem_dataFold data _ hx3 with hkey |
      ⟨a, ha, htitle, ⟨i, w⟩, hiw, hcw, hlw, hxeq, hqlen⟩
    · rcases mem_keyPool idx [] hkey with h0 | ⟨hk, hpre⟩
      · cases h0
      · exact Or.inl ⟨hk, (isPrefixOf_eq_true _ _).1 hpre⟩
    · refine Or.inr ⟨a, ha, (listContains_eq_true _ _).1 htitle, i, w, hiw,
        (listContains_eq_true _ _).1 hcw, hlw,
        ((((splitOnChar ' ' (lowerL a.title.data)).drop i).take 3).length),
        ?_, ?_, ?_, ?_⟩
      · have hi : i < (splitOnChar ' ' (lowerL a.title.data)).length := by
          have := List.mk_mem_enum_iff_getElem?.1 hiw
          exact (List.getElem?_eq_some.1 this).1
        have hlen := List.length_drop i (splitOnChar ' ' (lowerL a.title.data))
        rw [List.length_take, hlen]
        omega
      · rw [List.length_take]
        exact Nat.min_le_left _ _
      · rw [take_len_take3]
        exact hxeq
      · omega

set_option maxRecDepth 40000 in
/-- Witness for C5 at a one-article corpus and the partial query "te". -/
theorem claim5_suggestions_witness :
    ∃ out, getSuggestions ⟨some artsTech, some (createSearchIndex artsTech)⟩ "te"
        = Except.ok out ∧
      out.length ≤ 8 ∧
      out.Pairwise (fun a b => a.length ≤ b.length) ∧
      out.Nodup ∧
      ∀ x ∈ out, SuggestionFromIndex (createSearchIndex artsTech)
          (lowerL ("te").data) x ∨
        SuggestionFromTitle artsTech ("te").data (lowerL ("te").data) x :=
  claim5_suggestions (createSearchIndex artsTech) artsTech "te" (by decide)

set_option maxRecDepth 40000 in
/-- C6 counterexample: over a corpus with 20 identically scored non-tech
articles and one lower-scored tech article, `search("alpha", {section:
"tech"})` returns the tech article, which the unfiltered `search("alpha")`
does not contain at all (it fell past the 20-result cap), so the filtered
result list is not a subset — a fortiori not a strict subset — of the
unfiltered one. -/
theorem claim6_counterexample :
    ¬ (∀ r ∈ search engCap tNow "alpha" filtersTech,
        r ∈ search engCap tNow "alpha" noFilters) := by
  decide

/-- C6 amended: every result of the section-filtered search has section or
sectionKey "tech", and every such result appears among the unfiltered
scored results of the query (before the sort and the 20-result cap); the
subset relation against the truncated `search(q)` itself does not hold in
general, and need not be strict. -/
theorem claim6_amended (e : Engine) (now : Int) (q : String) :
    (∀ r ∈ search e now q filtersTech,
      r.sectionName = "tech" ∨ r.sectionKey = "tech") ∧
    (∀ r ∈ search e now q filtersTech, r ∈ searchScoredAll e now q) := by
  constructor
  · intro r hr
    obtain ⟨scored, filtered, hs, hf2, hrf⟩ :=
      search_mem_decomp e now q filtersTech r hr
    have happ : applyFilters scored filtersTech = Except.ok
        (scored.filter (fun a => a.sectionName == "tech" || a.sectionKey == "tech")) :=
      rfl
    rw [show filtered = scored.filter
        (fun a => a.sectionName == "tech" || a.sectionKey == "tech") from
      Except.ok.inj (happ.symm.trans hf2)|>.symm] at hrf
    have hpred := List.of_mem_filter hrf
    rw [Bool.or_eq_true] at hpred
    rcases hpred with h1 | h2
    · exact Or.inl (by simpa using h1)
    · exact Or.inr (by simpa using h2)
  · intro r hr
    obtain ⟨scored, filtered, hs, hf2, hrf⟩ :=
      search_mem_decomp e now q filtersTech r hr
    have hscored : r ∈ scored := applyFilters_subset hf2 r hrf
    unfold searchScoredAll
    rw [hs]
    exact hscored

/-- Witness for C6 amended at a one-article tech corpus. -/
theorem claim6_amended_witness :
    (((search engTech tNow "alpha" filtersTech).head (by decide)).sectionName
        = "tech" ∨
     ((search engTech tNow "alpha" filtersTech).head (by decide)).sectionKey
        = "tech") ∧
    ((search engTech tNow "alpha" filtersTech).head (by decide))
      ∈ searchScoredAll engTech tNow "alpha" :=
  ⟨(claim6_amended engTech tNow "alpha").1 _ (by decide),
   (claim6_amended engTech tNow "alpha").2 _ (by decide)⟩

/-- C7: over every indexed collection, every token key of the inverted
index built by `createSearchIndex` has length at least 2; shorter tokens
are never inserted as keys (and hence can never match a lookup). -/
theorem claim7_index_keys (articles : List IndexedArticle) (k : List Char)
    (hk : k ∈ indexKeys (createSearchIndex articles)) : 2 ≤ k.length :=
  keys_articlesFold articles.enum [] (by intro k hk; cases hk) k hk

/-- Witness for C7 at a one-article corpus whose index holds the key
"alpha". -/
theorem claim7_index_keys_witness : 2 ≤ (("alpha").data).length :=
  claim7_index_keys artsTech ("alpha").data (by decide)

/-- C2 counterexample: over the index of a corpus whose title holds the
token "constructors", the query token "constructor" belongs to the claimed
candidate union through the bidirectional prefix rule, yet the program
computes no candidate set at all: `this.searchIndex["constructor"]` reads
the inherited `Object.prototype.constructor`, which is truthy but has no
`forEach`, so candidate selection throws a `TypeError` and `search`
downgrades the query to `[]`. -/
theorem claim2_counterexample :
    ClaimCandidate idxProto [("constructor").data] 0 ∧
    getCandidateArticles idxProto [("constructor").data] = Except.error () ∧
    search engProto tNow "constructor" noFilters = [] := by
  refine ⟨?_, rfl, rfl⟩
  refine ⟨("constructor").data, by decide,
    Or.inr (Or.inl ⟨("constructors").data, Or.inr ⟨("s").data, by decide⟩, ?_⟩)⟩
  show PostedUnder idxProto (("constructors").data) 0
  unfold PostedUnder
  decide

/-- C2 amended: for every query token list none of whose tokens collides
with an inherited `Object.prototype` property name (absent an own index
key), candidate selection returns, and the computed candidate list is
duplicate-free and contains an article index exactly when some query token
reaches it through (a) its exact index key, (b) an index key in
bidirectional prefix relation with the token, or (c) — only for tokens
longer than 3 characters — an index key in bidirectional substring relation
with the token; a colliding token instead aborts candidate selection with a
`TypeError`. -/
theorem claim2_amended (idx : SearchIndex) (ws : List (List Char)) (i : Nat)
    (h : ∀ w ∈ ws, indexLookup idx w ≠ PropLookup.inherited) :
    ∃ cs, getCandidateArticles idx ws = Except.ok cs ∧ cs.Nodup ∧
      (i ∈ cs ↔ ClaimCandidate idx ws i) := by
  obtain ⟨out, hout⟩ := candFoldE_exists ws [] h
  refine ⟨out, hout, candFoldE_ok_nodup ws [] out hout List.nodup_nil, ?_⟩
  rw [candFoldE_ok_iff ws [] out hout i]
  unfold ClaimCandidate
  simp

/-- Witness for C2 amended at the `engProto` index and a non-colliding
token. -/
theorem claim2_amended_witness :
    ∃ cs, getCandidateArticles idxProto [("meet").data] = Except.ok cs ∧
      cs.Nodup ∧
      (0 ∈ cs ↔ ClaimCandidate idxProto [("meet").data] 0) :=
  claim2_amended idxProto [("meet").data] 0 (by decide)

/-- C8: with the same engine state and the same current time, two
consecutive calls of `search` yield identical ordered result lists, and the
engine state is unchanged in between (the state-passing embedding
`searchSt` returns the engine unmodified, as the source method assigns no
field). -/
theorem claim8_idempotent (e : Engine) (now : Int) (q : String) (f : Filters) :
    (searchSt e now q f).1 = (searchSt (searchSt e now q f).2 now q f).1 ∧
    (searchSt (searchSt e now q f).2 now q f).2 = e :=
  ⟨rfl, rfl⟩

/-- C9: `search` has no side effects: the state-passing embedding returns
the engine (indexed articles and inverted index) unchanged, and every
result embeds, field for field, an article record stored in the engine's
collection (the source spreads the stored record into a fresh result
object). -/
theorem claim9_frame (e : Engine) (now : Int) (q : String) (f : Filters) :
    (searchSt e now q f).2 = e ∧
    ∀ r ∈ (searchSt e now q f).1, ∃ d, e.searchData = some d ∧
      ∃ i a, d.get? i = some a ∧ r.toIndexedArticle = a := by
  refine ⟨rfl, ?_⟩
  intro r hr
  have hr2 : r ∈ search e now q f := hr
  unfold search at hr2
  by_cases hg : (trimChars q.data).length < 2
  · rw [if_pos hg] at hr2
    cases hr2
  · rw [if_neg hg] at hr2
    cases hb : searchBody e now q f with
    | error u =>
        rw [hb] at hr2
        cases hr2
    | ok out =>
        rw [hb] at hr2
        unfold searchBody at hb
        cases hs : scoredCandidates e now q with
        | error u =>
            simp only [hs] at hb
            exact Except.noConfusion hb
        | ok scored =>
            simp only [hs] at hb
            cases hf2 : applyFilters scored f with
            | error u =>
                simp only [hf2] at hb
                exact Except.noConfusion hb
            | ok filtered =>
                simp only [hf2] at hb
                rw [show out = (sortByScoreDesc filtered).take 20 from
                  (Except.ok.inj hb).symm] at hr2
                have hr3 : r ∈ sortByScoreDesc filtered :=
                  List.take_subset 20 _ hr2
                have hr4 : r ∈ filtered :=
                  (sortByScoreDesc_perm filtered).mem_iff.1 hr3
                have hr5 : r ∈ scored := applyFilters_subset hf2 r hr4
                obtain ⟨data, cands, hdata, hloop⟩ := scoredCandidates_ok hs
                exact ⟨data, hdata, scoreLoop_provenance cands [] scored hloop
                  (by intro r h; cases h) r hr5⟩

/-- Witness for C9 at a built engine and a matching query. -/
theorem claim9_frame_witness :
    ∃ d, engTech.searchData = some d ∧
      ∃ i a, d.get? i = some a ∧
        ((search engTech tNow "alpha" noFilters).head (by decide)).toIndexedArticle
          = a :=
  (claim9_frame engTech tNow "alpha" noFilters).2
    ((search engTech tNow "alpha" noFilters).head (by decide)) (by decide)

/-- C10: over a corpus whose only article is titled "c++ news", the query
"news c++" scores the article (its token "news" selects it as candidate and
the token "c++" occurs literally in the title), the word regexp built from
"c++" throws, the boundary handler downgrades the query to `[]` — while the
query "news" alone returns the article, showing a match existed. -/
theorem claim10_regex_throw :
    searchBody engCpp tNow "news c++" noFilters = Except.error () ∧
    search engCpp tNow "news c++" noFilters = [] ∧
    search engCpp tNow "news" noFilters ≠ [] := by
  refine ⟨rfl, rfl, ?_⟩
  intro h
  have he : (search engCpp tNow "news" noFilters).length = 1 := rfl
  rw [h] at he
  exact absurd he (by decide)

end NewsSearch
